import Mathlib

/-!
Verification development for the `sdy-insert-explicit-reshards` transformation
(`insert_explicit_reshards.cc`): a shallow embedding of the pass's data model
and algorithms, together with theorems settling the specification claims.

The core algorithm (axis-sequence model, candidate discovery, majority-vote
resolver, fast-path checks, reshard insertion, driver) is translated from the
source file.  External collaborators that the source only consumes — the
`AxisRefAttr` mesh/axis attribute, the sharding projection construction and
update call, the sharding-rule registry, and the graph/rewriter primitives —
are modelled from the specification's description of their interfaces.
-/

namespace SdyReshard

/-- Modelled from the spec: a contiguous sub-axis of a mesh axis, "a sub-range of
one mesh axis's shard positions, given by a start offset and a sub-size".  The
offset (`preSize`) and `size` address the multiplicative range
`[preSize, preSize * size)` of the axis, so that, e.g., `(1)2` and `(2)2` are the
two disjoint halves of an axis of size 4. -/
structure SubAxisInfo where
  preSize : Nat
  size : Nat
deriving DecidableEq

/-- Modelled from the spec: an axis reference "identifies a mesh axis or a
contiguous sub-axis"; the attribute itself is external to the provided source. -/
structure AxisRefAttr where
  name : String
  subAxisInfo : Option SubAxisInfo
deriving DecidableEq

/-- Modelled from the spec: "Two axis references overlap if their addressed
shard-index ranges intersect (same underlying mesh axis and overlapping
sub-ranges); disjoint sub-axes of the same mesh axis do not overlap."  A
whole-axis reference overlaps every reference to the same axis. -/
def AxisRefAttr.overlapsA (a b : AxisRefAttr) : Bool :=
  if a.name = b.name then
    match a.subAxisInfo, b.subAxisInfo with
    | none, _ => true
    | _, none => true
    | some s, some t =>
        decide (s.preSize < t.preSize * t.size) && decide (t.preSize < s.preSize * s.size)
  else false

/-- Modelled from the spec: a strict sub-axis prefix ("accounting for sub-axis
splitting of the boundary axis"): same mesh axis, same start, strictly smaller
sub-size; a whole-axis reference is never a strict prefix, and a sub-axis
starting at the beginning of the axis is a strict prefix of the whole axis. -/
def AxisRefAttr.strictPrefixOf (a b : AxisRefAttr) : Bool :=
  if a.name = b.name then
    match a.subAxisInfo, b.subAxisInfo with
    | none, _ => false
    | some s, none => decide (s.preSize = 1)
    | some s, some t => decide (s.preSize = t.preSize) && decide (s.size < t.size)
  else false

/-- Modelled from the spec: a (possibly whole-axis) prefix is equality or a
strict prefix. -/
def AxisRefAttr.prefixOf (a b : AxisRefAttr) : Bool :=
  decide (a = b) || a.strictPrefixOf b

/-- Modelled from the spec: a mesh axis is a name with a positive size. -/
structure MeshAxis where
  name : String
  size : Nat
deriving DecidableEq

/-- Modelled from the spec: a mesh is a "named collection of axes, each with a
positive integer size". -/
structure MeshAttr where
  axes : List MeshAxis
deriving DecidableEq

/-- Modelled from the spec: the shard count of an axis reference — a sub-axis
contributes its sub-size, a whole-axis reference the axis's size in the mesh. -/
def AxisRefAttr.getSize (a : AxisRefAttr) (mesh : MeshAttr) : Nat :=
  match a.subAxisInfo with
  | some s => s.size
  | none =>
      match mesh.axes.find? (fun ax => decide (ax.name = a.name)) with
      | some ax => ax.size
      | none => 1

/-- Modelled from the spec: a deterministic total order on axis references used
only as the innermost tie-break (the spec acknowledges the order as arbitrary). -/
def AxisRefAttr.lt (a b : AxisRefAttr) : Bool :=
  if a.name = b.name then
    match a.subAxisInfo, b.subAxisInfo with
    | none, none => false
    | none, some _ => true
    | some _, none => false
    | some s, some t =>
        if s.preSize = t.preSize then decide (s.size < t.size)
        else decide (s.preSize < t.preSize)
  else decide (a.name < b.name)

/-- `AxesWithTail` from the source: an ordered sequence of axis references,
represented as a shared prefix view plus a distinguished tail element.  The C++
null `tailAxisRef` is modelled as `none`; the hash-map tombstone flag is an
artifact of one hashing scheme and is not part of the semantics. -/
structure AxesWithTail where
  axisRefs : List AxisRefAttr
  tailAxisRef : Option AxisRefAttr
deriving DecidableEq

instance : Inhabited AxesWithTail := ⟨⟨[], none⟩⟩

/-- The distinguished empty ("unsharded") sequence (`AxesWithTail()`). -/
def AxesWithTail.emptySeq : AxesWithTail := ⟨[], none⟩

/-- `AxesWithTail(ArrayRef)`: splits a non-empty list into prefix and tail
(`axisRefs.drop_back()` / `axisRefs.back()`). -/
def AxesWithTail.ofAxes (l : List AxisRefAttr) : AxesWithTail :=
  ⟨l.dropLast, l.getLast?⟩

/-- `AxesWithTail::empty`: it is sufficient to check whether the tail is empty. -/
def AxesWithTail.empty (a : AxesWithTail) : Bool :=
  a.tailAxisRef.isNone

/-- `AxesWithTail::size`. -/
def AxesWithTail.size (a : AxesWithTail) : Nat :=
  if a.empty then 0 else a.axisRefs.length + 1

/-- `AxesWithTail::overlaps(AxisRefAttr)`: whether `x` overlaps some axis of the
sequence. -/
def AxesWithTail.overlapsRef (a : AxesWithTail) (x : AxisRefAttr) : Bool :=
  if a.empty then false
  else
    (match a.tailAxisRef with
     | some t => x.overlapsA t
     | none => false)
    || a.axisRefs.any (fun againstAxisRef => x.overlapsA againstAxisRef)

/-- `AxesWithTail::overlaps(AxesWithTail)`: whether any two axes, one from each
sequence, overlap. -/
def AxesWithTail.overlaps (a rhs : AxesWithTail) : Bool :=
  if a.empty then false
  else
    (match a.tailAxisRef with
     | some t => rhs.overlapsRef t
     | none => false)
    || a.axisRefs.any (fun axisRef => rhs.overlapsRef axisRef)

/-- `AxesWithTail::toVector`: the concatenation of the prefix and the tail. -/
def AxesWithTail.toVector (a : AxesWithTail) : List AxisRefAttr :=
  match a.tailAxisRef with
  | none => []
  | some t => a.axisRefs ++ [t]

/-- `AxesWithTail::strictPrefixOf`: the sequence is a strict prefix of `rhs`,
with sub-axis reasoning at the boundary element. -/
def AxesWithTail.strictPrefixOf (a rhs : AxesWithTail) : Bool :=
  match a.tailAxisRef with
  | none => !rhs.empty
  | some ta =>
    if a.size > rhs.size then false
    else if (a.axisRefs.zip rhs.axisRefs).any (fun p => decide (p.1 ≠ p.2)) then false
    else if a.size = rhs.size then
      match rhs.tailAxisRef with
      | some tb => ta.strictPrefixOf tb
      | none => false
    else
      match rhs.axisRefs.get? a.axisRefs.length with
      | some bx => ta.prefixOf bx
      | none => false

/-- `AxesWithTail::getShardingSize(mesh)`: the product of the sharding sizes of
all individual axes, tail included. -/
def AxesWithTail.getShardingSize (a : AxesWithTail) (mesh : MeshAttr) : Nat :=
  if a.empty then 1
  else
    (a.axisRefs.foldl (fun acc axisRef => acc * axisRef.getSize mesh) 1) *
      (match a.tailAxisRef with
       | some t => t.getSize mesh
       | none => 1)

/-- `AxesWithTail::getShardingSize(mesh, prefix)`: the size divided by the size
of the given leading sequence (the incremental sharding beyond it). -/
def AxesWithTail.getShardingSizeFrom (a : AxesWithTail) (mesh : MeshAttr)
    (pfx : AxesWithTail) : Nat :=
  a.getShardingSize mesh / pfx.getShardingSize mesh

/-- `AxesWithTail::operator<`: shorter sequences first, then lexicographic. -/
def AxesWithTail.lt (a rhs : AxesWithTail) : Bool :=
  if a.size ≠ rhs.size then decide (a.size < rhs.size)
  else
    match (a.axisRefs.zip rhs.axisRefs).find? (fun p => decide (p.1 ≠ p.2)) with
    | some p => AxisRefAttr.lt p.1 p.2
    | none =>
        if a.tailAxisRef ≠ rhs.tailAxisRef then
          match a.tailAxisRef, rhs.tailAxisRef with
          | none, none => false
          | none, some _ => true
          | some _, none => false
          | some x, some y => AxisRefAttr.lt x y
        else false

/-- `FactorAxesPair` from the source: a factor identifier paired with an axis
sequence.  `factorIndex = -1` is the reserved empty sentinel
(`kEmptyFactorIndex`), used as the "no best yet" value by the resolver. -/
structure FactorAxesPair where
  factorIndex : Int := -1
  axes : AxesWithTail := AxesWithTail.emptySeq
deriving DecidableEq

instance : Inhabited FactorAxesPair := ⟨{}⟩

/-- `FactorAxesPair::kEmptyFactorIndex`. -/
def FactorAxesPair.kEmptyFactorIndex : Int := -1

/-- `FactorAxesPair::empty`. -/
def FactorAxesPair.empty (p : FactorAxesPair) : Bool :=
  decide (p.factorIndex = FactorAxesPair.kEmptyFactorIndex)

/-- `FactorAxesPair::operator<`. -/
def FactorAxesPair.lt (p rhs : FactorAxesPair) : Bool :=
  if p.factorIndex ≠ rhs.factorIndex then decide (p.factorIndex < rhs.factorIndex)
  else p.axes.lt rhs.axes

/-- `FactorAxesPair::overlaps`. -/
def FactorAxesPair.overlaps (p rhs : FactorAxesPair) : Bool :=
  p.axes.overlaps rhs.axes

/-- `FactorAxesPair::assignTo`: writes the axes into the per-factor output array
at the pair's factor index (callers only invoke it on non-empty pairs, whose
factor index is a natural number). -/
def FactorAxesPair.assignTo (p : FactorAxesPair) (axesPerFactor : List AxesWithTail) :
    List AxesWithTail :=
  axesPerFactor.set p.factorIndex.toNat p.axes

/-- `FactorAxesCandidate` from the source: a factor-axes pair with an occurrence
count and a sharding size. -/
structure FactorAxesCandidate where
  factorAxes : FactorAxesPair := {}
  count : Nat := 0
  shardingSize : Nat := 0
deriving DecidableEq

instance : Inhabited FactorAxesCandidate := ⟨{}⟩

/-- `FactorAxesCandidate::operator<`: occurrence count, then sharding size, then
the pair's own order. -/
def FactorAxesCandidate.lt (c rhs : FactorAxesCandidate) : Bool :=
  if c.count ≠ rhs.count then decide (c.count < rhs.count)
  else if c.shardingSize ≠ rhs.shardingSize then decide (c.shardingSize < rhs.shardingSize)
  else c.factorAxes.lt rhs.factorAxes

/-- `std::max` over candidates: returns the second argument exactly when the
first compares less. -/
def stdMax (a b : FactorAxesCandidate) : FactorAxesCandidate :=
  if FactorAxesCandidate.lt a b then b else a

/-- `FactorSharding` (external, consumed): a factor's current axis assignment
plus its overflow axes. -/
structure FactorSharding where
  axisRefs : List AxisRefAttr
  overflowAxes : List AxisRefAttr
deriving DecidableEq

/-- `TensorFactorShardings` (external, consumed): the per-tensor mapping from
factor index to its factor sharding, in the tensor's iteration order. -/
structure TensorFactorShardings where
  factorIndexToSharding : List (Nat × FactorSharding)
deriving DecidableEq

/-- `ShardingProjection` (external, consumed): per-operand and per-result
tensor factor shardings. -/
structure ShardingProjection where
  operands : List TensorFactorShardings
  results : List TensorFactorShardings
deriving DecidableEq

/-- `llvm::concat(projection.getOperands(), projection.getResults())`. -/
def ShardingProjection.tensors (p : ShardingProjection) : List TensorFactorShardings :=
  p.operands ++ p.results

/-- All `(factorIndex, factorSharding)` occurrences of the projection, flattened
in tensor iteration order. -/
def ShardingProjection.allEntries (p : ShardingProjection) : List (Nat × FactorSharding) :=
  p.tensors.flatMap (fun t => t.factorIndexToSharding)

/-- `hasOverflowAxes`: true iff any tensor factor sharding has non-empty
overflow axes. -/
def hasOverflowAxes (projection : ShardingProjection) : Bool :=
  projection.tensors.any (fun tensorFactorSharding =>
    tensorFactorSharding.factorIndexToSharding.any (fun e => !e.2.overflowAxes.isEmpty))

/-- Association-list lookup (first matching key), used to model the hash maps of
the source with a deterministic iteration order. -/
def alookup {α β : Type} [DecidableEq α] : List (α × β) → α → Option β
  | [], _ => none
  | (k, v) :: rest, f => if k = f then some v else alookup rest f

/-- The scanning state machine of `hasCompatibleFactorShardings`, threaded over
the flattened occurrence list: the map holds the first-seen axis assignment per
factor and the scan fails the moment a later occurrence disagrees. -/
def commonCheck : List (Nat × List AxisRefAttr) → List (Nat × FactorSharding) → Bool
  | _, [] => true
  | common, (factorIndex, factorSharding) :: rest =>
    match alookup common factorIndex with
    | none => commonCheck (common ++ [(factorIndex, factorSharding.axisRefs)]) rest
    | some axes =>
        if factorSharding.axisRefs = axes then commonCheck common rest else false

/-- `hasCompatibleFactorShardings`: factors are sharded the same way across
operands and results (full-sequence equality against the first-seen value). -/
def hasCompatibleFactorShardings (projection : ShardingProjection) : Bool :=
  commonCheck [] projection.allEntries

/-- Set insertion for the per-factor axes sets (`DenseSet::insert`), modelled as
an order-preserving duplicate-free list. -/
def insertSet (s : List AxesWithTail) (a : AxesWithTail) : List AxesWithTail :=
  if a ∈ s then s else s ++ [a]

/-- The `while (!axisRefs.empty())` loop of candidate discovery: inserts the
sequence for `axisRefs` and every `drop_back` truncation of it into the set. -/
def insertAllTruncationsGo (fuel : Nat) (s : List AxesWithTail)
    (axisRefs : List AxisRefAttr) : List AxesWithTail :=
  match fuel, axisRefs with
  | _, [] => s
  | 0, _ => s
  | fuel + 1, a :: rest =>
      insertAllTruncationsGo fuel (insertSet s (AxesWithTail.ofAxes (a :: rest)))
        (a :: rest).dropLast

/-- The `while (!axisRefs.empty())` loop, entered with enough fuel for every
truncation (each iteration drops the back element). -/
def insertAllTruncations (s : List AxesWithTail) (axisRefs : List AxisRefAttr) :
    List AxesWithTail :=
  insertAllTruncationsGo axisRefs.length s axisRefs

/-- First phase of `findFactorAxesCandidates`: the per-factor sets of candidate
axes, collected from every occurrence and all its truncations. -/
def buildAxesSets (numFactors : Nat) (entries : List (Nat × FactorSharding)) :
    List (List AxesWithTail) :=
  entries.foldl
    (fun axesSets e =>
      axesSets.set e.1 (insertAllTruncations (axesSets.getD e.1 []) e.2.axisRefs))
    (List.replicate numFactors [])

/-- `incrementFactorAxesCounts`: bumps the count of an existing entry for the
key, or inserts a fresh candidate with count 1 and the sequence's own sharding
size under the mesh. -/
def incrementFactorAxesCounts (factorAxesCounts : List (FactorAxesPair × FactorAxesCandidate))
    (factorAxes : FactorAxesPair) (mesh : MeshAttr) :
    List (FactorAxesPair × FactorAxesCandidate) :=
  match alookup factorAxesCounts factorAxes with
  | some _ =>
      factorAxesCounts.map (fun e =>
        if e.1 = factorAxes then (e.1, { e.2 with count := e.2.count + 1 }) else e)
  | none =>
      factorAxesCounts ++
        [(factorAxes, ⟨factorAxes, 1, factorAxes.axes.getShardingSize mesh⟩)]

/-- Second phase of `findFactorAxesCandidates`: for every non-empty occurrence,
register the full assignment, then every member of the factor's axes set that is
a strict prefix of it. -/
def countPhase (axesSets : List (List AxesWithTail)) (mesh : MeshAttr) :
    List (FactorAxesPair × FactorAxesCandidate) → List (Nat × FactorSharding) →
    List (FactorAxesPair × FactorAxesCandidate)
  | m, [] => m
  | m, (factorIndex, factorSharding) :: rest =>
    if factorSharding.axisRefs.isEmpty then countPhase axesSets mesh m rest
    else
      let factorAxes : FactorAxesPair :=
        ⟨factorIndex, AxesWithTail.ofAxes factorSharding.axisRefs⟩
      let m1 := incrementFactorAxesCounts m factorAxes mesh
      let m2 := (axesSets.getD factorIndex []).foldl
        (fun m axes =>
          if axes.strictPrefixOf factorAxes.axes then
            incrementFactorAxesCounts m ⟨(factorIndex : Int), axes⟩ mesh
          else m) m1
      countPhase axesSets mesh m2 rest

/-- `findFactorAxesCandidates`: the de-duplicated candidate list with occurrence
counts and sharding sizes. -/
def findFactorAxesCandidates (projection : ShardingProjection) (numFactors : Nat)
    (mesh : MeshAttr) : List FactorAxesCandidate :=
  let axesSets := buildAxesSets numFactors projection.allEntries
  (countPhase axesSets mesh [] projection.allEntries).map (fun e => e.2)

/-- The keep condition of the resolver's scan: a candidate of the committed
factor survives iff the committed axes are a strict prefix of its own; a
candidate of another factor survives iff its axes do not overlap the committed
ones. -/
def scanKeep (best : FactorAxesPair) (c : FactorAxesCandidate) : Bool :=
  if c.factorAxes.factorIndex = best.factorIndex then
    best.axes.strictPrefixOf c.factorAxes.axes
  else !(c.factorAxes.overlaps best)

/-- The in-place update of the resolver's scan: a surviving candidate of the
committed factor has its sharding size recomputed as the incremental size beyond
the committed axes; other candidates are unchanged. -/
def scanUpdate (mesh : MeshAttr) (best : FactorAxesPair) (c : FactorAxesCandidate) :
    FactorAxesCandidate :=
  if c.factorAxes.factorIndex = best.factorIndex then
    { c with shardingSize := c.factorAxes.axes.getShardingSizeFrom mesh best.axes }
  else c

/-- The inner `while (candidateIndex < size)` scan of the resolver, with its
swap-remove deletions.  The candidate vector is represented as
`front ++ back`, where `front` holds the already-processed (kept) candidates and
`back` the unprocessed ones at indices `candidateIndex` and beyond; removal
copies the vector's back element over the current index and pops the back,
which moves the last unprocessed element to the current position. -/
def scanGo (mesh : MeshAttr) (best : FactorAxesPair) :
    Nat → List FactorAxesCandidate → FactorAxesCandidate →
    List FactorAxesCandidate → List FactorAxesCandidate × FactorAxesCandidate
  | _, front, nextBest, [] => (front, nextBest)
  | 0, front, nextBest, _ => (front, nextBest)
  | fuel + 1, front, nextBest, candidate :: rest =>
    if scanKeep best candidate then
      let c := scanUpdate mesh best candidate
      scanGo mesh best fuel (front ++ [c]) (stdMax nextBest c) rest
    else
      match rest with
      | [] => (front, nextBest)
      | r :: rs =>
          scanGo mesh best fuel front nextBest ((r :: rs).getLastD r :: (r :: rs).dropLast)

/-- One scan over the remaining candidates: removes the candidates invalidated
by the committed best and returns the survivors together with the round's new
best (initialized to the default candidate, as in the source).  The fuel equals
the list length: every iteration of the `while (candidateIndex < size)` loop
either advances the index or shrinks the vector, so `size` iterations over the
unprocessed suffix suffice. -/
def scanCandidates (mesh : MeshAttr) (best : FactorAxesPair)
    (cands : List FactorAxesCandidate) : List FactorAxesCandidate × FactorAxesCandidate :=
  scanGo mesh best cands.length [] {} cands

/-- The state returned by the resolver's main loop: the per-factor assignment,
the remaining candidate list (empty whenever the loop ran to completion), and
the number of performed commit rounds (instrumentation used by the
round-counting theorems; the source keeps no such counter). -/
structure ResolveResult where
  assign : List AxesWithTail
  cands : List FactorAxesCandidate
  commits : Nat
deriving DecidableEq

/-- The `while (!factorAxesCandidates.empty())` loop of
`findCommonAxesUsingMajorityVoteHeuristic`, with an explicit fuel parameter to
make the recursion structural: each iteration commits the pending best (when
non-empty), scans the remaining candidates once, and continues with the scan's
new best. -/
def resolveLoop (mesh : MeshAttr) :
    Nat → FactorAxesPair → List FactorAxesCandidate → List AxesWithTail → Nat →
    ResolveResult
  | 0, _, cands, factorAxisRefs, commits => ⟨factorAxisRefs, cands, commits⟩
  | fuel + 1, bestFactorAxes, cands, factorAxisRefs, commits =>
    if cands.isEmpty then ⟨factorAxisRefs, cands, commits⟩
    else
      let S' := if bestFactorAxes.empty then factorAxisRefs
                else bestFactorAxes.assignTo factorAxisRefs
      let commits' := if bestFactorAxes.empty then commits else commits + 1
      let scanned := scanCandidates mesh bestFactorAxes cands
      resolveLoop mesh fuel scanned.2.factorAxes scanned.1 S' commits'

/-- `findCommonAxesUsingMajorityVoteHeuristic` with its loop instrumentation:
runs discovery and then the main loop, with enough fuel for the loop to run to
completion (the first round never shrinks the list and every later round with a
pending best removes at least the best's own duplicate). -/
def majorityVoteStats (projection : ShardingProjection) (numFactors : Nat)
    (mesh : MeshAttr) : ResolveResult :=
  let factorAxesCandidates := findFactorAxesCandidates projection numFactors mesh
  resolveLoop mesh (factorAxesCandidates.length + 2) {} factorAxesCandidates
    (List.replicate numFactors AxesWithTail.emptySeq) 0

/-- `findCommonAxesUsingMajorityVoteHeuristic`: the per-factor axis assignment
produced by the majority-vote loop. -/
def findCommonAxesUsingMajorityVoteHeuristic (projection : ShardingProjection)
    (numFactors : Nat) (mesh : MeshAttr) : List AxesWithTail :=
  (majorityVoteStats projection numFactors mesh).assign

/-- `findCommonAxes`. -/
def findCommonAxes (projection : ShardingProjection) (numFactors : Nat)
    (mesh : MeshAttr) : List AxesWithTail :=
  findCommonAxesUsingMajorityVoteHeuristic projection numFactors mesh

/-- Modelled from the spec: one dimension's sharding inside a tensor sharding
annotation (an axis list, open or closed). -/
structure DimSharding where
  axes : List AxisRefAttr
  isClosed : Bool
deriving DecidableEq

/-- Modelled from the spec: a tensor sharding annotation — "ordered list of
per-dimension axis-sets over a named mesh". -/
structure TensorShardingAttr where
  meshName : String
  dimShardings : List DimSharding
deriving DecidableEq

/-- Modelled from the spec: "fully replicated" means no axis assigned to any
dimension. -/
def TensorShardingAttr.isFullyReplicated (s : TensorShardingAttr) : Bool :=
  s.dimShardings.all (fun d => d.axes.isEmpty)

/-- `isFullyReplicated` lifted to a possibly-absent annotation (the C++ null
attribute is fully replicated). -/
def isFullyReplicatedOpt (s : Option TensorShardingAttr) : Bool :=
  match s with
  | none => true
  | some s => s.isFullyReplicated

/-- Modelled from the spec: `TensorShardingAttr::getFullyClosedLike` — the same
axes with every dimension closed. -/
def getFullyClosedLike (s : TensorShardingAttr) : TensorShardingAttr :=
  { s with dimShardings := s.dimShardings.map (fun d => { d with isClosed := true }) }

/-- Modelled from the spec: an operation's sharding rule — per operand/result
dimension, the factors it corresponds to, plus the declared factor sizes. -/
structure OpShardingRuleAttr where
  operandMappings : List (List (List Nat))
  resultMappings : List (List (List Nat))
  factorSizes : List Nat
  numFactors : Nat
deriving DecidableEq

/-- Modelled from the spec: `TensorFactorShardings::createTensorShardingAttr` —
the tensor's target sharding re-derived from the per-factor axis assignment and
the tensor's dimension-to-factor mapping (each dimension concatenates the axes
of its factors, major to minor). -/
def createTensorShardingAttr (t : TensorFactorShardings)
    (dimMapping : List (List Nat)) (_factorSizes : List Nat) (meshName : String)
    (_mesh : MeshAttr) : TensorShardingAttr :=
  { meshName := meshName
    dimShardings := dimMapping.map (fun factors =>
      { axes := factors.flatMap (fun f =>
          match alookup t.factorIndexToSharding f with
          | some fs => fs.axisRefs
          | none => [])
        isClosed := true }) }

/-- The kind of a graph operation: the function's return point, an inserted
reshard (carrying its target sharding annotation), or an ordinary computation
(carrying its optional sharding rule and, since the projection structure is an
external collaborator that the core only consumes, its sharding projection). -/
inductive OpKind where
  | ret : OpKind
  | reshard : Option TensorShardingAttr → OpKind
  | compute : Option OpShardingRuleAttr → ShardingProjection → OpKind
deriving DecidableEq

/-- Modelled from the spec: a graph operation with ordered operand and result
values (identified by numbers). -/
structure OpNode where
  opId : Nat
  kind : OpKind
  operands : List Nat
  results : List Nat
deriving DecidableEq

/-- Modelled from the spec: the function body — operations in program order, the
value-to-annotation map, the mesh symbol table, the declared function-result
shardings, and a fresh-id counter for newly created values and operations. -/
structure Graph where
  ops : List OpNode
  shardings : List (Nat × TensorShardingAttr)
  meshes : List (String × MeshAttr)
  funcResultShardings : List (Option TensorShardingAttr)
  nextId : Nat
deriving DecidableEq

/-- `getSharding(value)`. -/
def Graph.getShardingV (g : Graph) (v : Nat) : Option TensorShardingAttr :=
  alookup g.shardings v

/-- `setSharding(value, sharding)`. -/
def Graph.setShardingV (g : Graph) (v : Nat) (s : TensorShardingAttr) : Graph :=
  if (alookup g.shardings v).isSome then
    { g with shardings := g.shardings.map (fun e => if e.1 = v then (v, s) else e) }
  else { g with shardings := g.shardings ++ [(v, s)] }

/-- Finds an operation by id. -/
def Graph.findOp (g : Graph) (opId : Nat) : Option OpNode :=
  g.ops.find? (fun o => decide (o.opId = opId))

/-- "Insert node immediately before X" (spec §9 graph primitive). -/
def Graph.insertBeforeOp (g : Graph) (targetId : Nat) (n : OpNode) : Graph :=
  { g with ops := g.ops.flatMap (fun o => if o.opId = targetId then [n, o] else [o]) }

/-- "Insert node immediately after X" (spec §9 graph primitive). -/
def Graph.insertAfterOp (g : Graph) (targetId : Nat) (n : OpNode) : Graph :=
  { g with ops := g.ops.flatMap (fun o => if o.opId = targetId then [o, n] else [o]) }

/-- Rewrites one operation in place. -/
def Graph.modifyOp (g : Graph) (opId : Nat) (f : OpNode → OpNode) : Graph :=
  { g with ops := g.ops.map (fun o => if o.opId = opId then f o else o) }

/-- `rewriter.replaceAllUsesExcept(oldV, newV, exceptOp)`: every operation other
than `exceptOp` that consumes `oldV` now consumes `newV`. -/
def Graph.replaceUsesExcept (g : Graph) (oldV newV exceptOpId : Nat) : Graph :=
  { g with ops := g.ops.map (fun o =>
      if o.opId = exceptOpId then o
      else { o with operands := o.operands.map (fun v => if v = oldV then newV else v) }) }

/-- `UpdateTensorShardings` (external): one change bit per operand and per
result. -/
structure UpdateTensorShardings where
  updateOperands : List Bool
  updateResults : List Bool
deriving DecidableEq

/-- The indices of the set bits, in order (`set_bits` / `toSetBitsVector`). -/
def trueIndices (bits : List Bool) : List Nat :=
  (bits.enum.filter (fun e => e.2)).map (fun e => e.1)

/-- The operand loop of `insertExplicitReshards`: for each changed operand, a
reshard to the target sharding (re-derived from the projection) is created
immediately before the operation, which is rewired to consume it. -/
def insertOperandReshards (g : Graph) (opId : Nat) (projection : ShardingProjection)
    (idxs : List Nat) (rule : OpShardingRuleAttr) (meshName : String) (mesh : MeshAttr) :
    Graph :=
  idxs.foldl
    (fun g operandIndex =>
      match g.findOp opId with
      | none => g
      | some op =>
        match op.operands.get? operandIndex, projection.operands.get? operandIndex,
            rule.operandMappings.get? operandIndex with
        | some v, some tfs, some mapping =>
          let newTensorSharding :=
            createTensorShardingAttr tfs mapping rule.factorSizes meshName mesh
          let reshardOpId := g.nextId
          let reshardVal := g.nextId + 1
          let node : OpNode := ⟨reshardOpId, .reshard (some newTensorSharding), [v], [reshardVal]⟩
          let g1 := { g with nextId := g.nextId + 2 }
          let g2 := g1.insertBeforeOp opId node
          let g3 := g2.setShardingV reshardVal newTensorSharding
          g3.modifyOp opId (fun o => { o with operands := o.operands.set operandIndex reshardVal })
        | _, _, _ => g)
    g

/-- The result loop of `insertExplicitReshards`: for each changed result, a
reshard annotated with the result's original sharding is created at the
insertion point after the operation (which then advances past the created
node), all other consumers of the result are redirected to the reshard, and the
result's annotation is updated to the resolved sharding. -/
def insertResultReshards (g : Graph) (opId : Nat) (projection : ShardingProjection)
    (idxs : List Nat) (rule : OpShardingRuleAttr) (meshName : String) (mesh : MeshAttr) :
    Graph :=
  (idxs.foldl
    (fun (st : Graph × Nat) resultIndex =>
      let g := st.1
      match g.findOp opId with
      | none => st
      | some op =>
        match op.results.get? resultIndex, projection.results.get? resultIndex,
            rule.resultMappings.get? resultIndex with
        | some r, some tfs, some mapping =>
          let newTensorSharding :=
            createTensorShardingAttr tfs mapping rule.factorSizes meshName mesh
          let origSharding := g.getShardingV r
          let reshardOpId := g.nextId
          let reshardVal := g.nextId + 1
          let node : OpNode := ⟨reshardOpId, .reshard origSharding, [r], [reshardVal]⟩
          let g1 := { g with nextId := g.nextId + 2 }
          let g2 := g1.insertAfterOp st.2 node
          let g3 := match origSharding with
            | some s => g2.setShardingV reshardVal s
            | none => g2
          let g4 := g3.replaceUsesExcept r reshardVal reshardOpId
          let g5 := g4.setShardingV r newTensorSharding
          (g5, reshardOpId)
        | _, _, _ => st)
    (g, opId)).1

/-- `insertExplicitReshards`: operand reshards before the operation, then result
reshards after it. -/
def insertExplicitReshards (g : Graph) (opId : Nat) (projection : ShardingProjection)
    (updateTensorShardings : UpdateTensorShardings) (rule : OpShardingRuleAttr)
    (meshName : String) (mesh : MeshAttr) : Graph :=
  let g1 := insertOperandReshards g opId projection
    (trueIndices updateTensorShardings.updateOperands) rule meshName mesh
  insertResultReshards g1 opId projection
    (trueIndices updateTensorShardings.updateResults) rule meshName mesh

/-- Modelled from the spec: the projection's per-tensor update — replaces the
factor's sharding (clearing overflow axes) and reports whether the tensor's
sharding changed. -/
def TensorFactorShardings.updateFactor (t : TensorFactorShardings) (f : Nat)
    (axes overflow : List AxisRefAttr) : TensorFactorShardings × Bool :=
  match alookup t.factorIndexToSharding f with
  | none => (t, false)
  | some fs =>
    if fs.axisRefs = axes ∧ fs.overflowAxes = overflow then (t, false)
    else
      ({ factorIndexToSharding := t.factorIndexToSharding.map
          (fun e => if e.1 = f then (e.1, ⟨axes, overflow⟩) else e) }, true)

/-- Modelled from the spec: `ShardingProjection::updateSharding` — the update
call of the projection interface, returning which operand/result tensors
changed. -/
def ShardingProjection.updateSharding (p : ShardingProjection) (f : Nat)
    (axes overflow : List AxisRefAttr) : ShardingProjection × UpdateTensorShardings :=
  let os := p.operands.map (fun t => t.updateFactor f axes overflow)
  let rs := p.results.map (fun t => t.updateFactor f axes overflow)
  (⟨os.map (fun e => e.1), rs.map (fun e => e.1)⟩,
   ⟨os.map (fun e => e.2), rs.map (fun e => e.2)⟩)

/-- Bitwise or of change bits (`operator|=`). -/
def UpdateTensorShardings.orBits (u v : UpdateTensorShardings) : UpdateTensorShardings :=
  ⟨u.updateOperands.zipWith (fun a b => a || b) v.updateOperands,
   u.updateResults.zipWith (fun a b => a || b) v.updateResults⟩

/-- The driver's resolution step: applies each resolved factor assignment back
into the projection, accumulating the change bits. -/
def applyCommonAxes (p : ShardingProjection) (axesPerFactor : List AxesWithTail) :
    ShardingProjection × UpdateTensorShardings :=
  axesPerFactor.enum.foldl
    (fun (st : ShardingProjection × UpdateTensorShardings) e =>
      let stepped := st.1.updateSharding e.1 e.2.toVector []
      (stepped.1, st.2.orBits stepped.2))
    (p, ⟨List.replicate p.operands.length false, List.replicate p.results.length false⟩)

/-- Modelled from the spec: the sharding-rule registry — returns the rule of an
ordinary computation; rule absence (including for reshard and return
operations) means "not applicable", not an error. -/
def getOrCreateShardingRule (op : OpNode) : Option OpShardingRuleAttr :=
  match op.kind with
  | .compute rule _ => rule
  | _ => none

/-- The projection of a computation operation (built externally; the core
consumes it through the `OpKind.compute` payload). -/
def getProjection (op : OpNode) : ShardingProjection :=
  match op.kind with
  | .compute _ p => p
  | _ => ⟨[], []⟩

/-- Modelled from the spec: `getCommonMeshName` — the single mesh name shared by
all present operand/result sharding annotations, or `none` when there is none
or they disagree. -/
def getCommonMeshName (g : Graph) (op : OpNode) : Option String :=
  match (op.operands ++ op.results).filterMap g.getShardingV with
  | [] => none
  | s :: rest =>
      if rest.all (fun t => t.meshName = s.meshName) then some s.meshName else none

/-- The `func::ReturnOp` branch of the driver: for every returned value, if the
value's sharding and the declared function-result sharding are not both fully
replicated and differ, insert a reshard immediately before the return targeting
the declared sharding (or a fully-closed version of the value's sharding when
none is declared) and rewire the return to it. -/
def processReturnOp (g : Graph) (op : OpNode) : Graph :=
  op.operands.enum.foldl
    (fun g e =>
      let index := e.1
      let operandV := e.2
      let operandSharding := g.getShardingV operandV
      let funcResultSharding := g.funcResultShardings.getD index none
      if isFullyReplicatedOpt operandSharding && isFullyReplicatedOpt funcResultSharding then g
      else if funcResultSharding ≠ operandSharding then
        let target := match funcResultSharding with
          | some s => s
          | none => getFullyClosedLike (operandSharding.getD ⟨"", []⟩)
        let reshardOpId := g.nextId
        let reshardVal := g.nextId + 1
        let node : OpNode := ⟨reshardOpId, .reshard (some target), [operandV], [reshardVal]⟩
        let g1 := { g with nextId := g.nextId + 2 }
        let g2 := g1.insertBeforeOp op.opId node
        let g3 := g2.setShardingV reshardVal target
        g3.modifyOp op.opId (fun o => { o with operands := o.operands.set index reshardVal })
      else g)
    g

/-- The per-operation body of `InsertExplicitReshardsPass::runOnOperation`:
return handling, then the rule / mesh / overflow / compatibility gates, then
resolution and reshard insertion. -/
def processOp (g : Graph) (opId : Nat) : Graph :=
  match g.findOp opId with
  | none => g
  | some op =>
    match op.kind with
    | .ret => processReturnOp g op
    | _ =>
      match getOrCreateShardingRule op with
      | none => g
      | some shardingRule =>
        match getCommonMeshName g op with
        | none => g
        | some meshName =>
          match alookup g.meshes meshName with
          | none => g
          | some mesh =>
            let shardingProjection := getProjection op
            if hasOverflowAxes shardingProjection then g
            else if hasCompatibleFactorShardings shardingProjection then g
            else
              let resolved := applyCommonAxes shardingProjection
                (findCommonAxes shardingProjection shardingRule.numFactors mesh)
              insertExplicitReshards g opId resolved.1 resolved.2 shardingRule meshName mesh

/-- The pass driver: walks the operations present at the start of the run in
program order (operations inserted during the walk have no sharding rule and
are skipped even when revisited). -/
def runPass (g : Graph) : Graph :=
  (g.ops.map (fun o => o.opId)).foldl processOp g

/-- Following the claim's words, for comparison with the code (claim C3): the
keys the claim says candidate discovery registers — every non-empty factor
assignment occurring on a tensor, plus every strict prefix of such an
assignment that itself appears as some tensor's factor assignment for the same
factor. -/
def claimRegisteredKeys (p : ShardingProjection) : List FactorAxesPair :=
  let occ := p.allEntries.filter (fun e => !e.2.axisRefs.isEmpty)
  let fullKeys := occ.map
    (fun e => (⟨(e.1 : Int), AxesWithTail.ofAxes e.2.axisRefs⟩ : FactorAxesPair))
  fullKeys ++ occ.flatMap (fun e =>
    fullKeys.filter (fun k =>
      decide (k.factorIndex = (e.1 : Int)) &&
        k.axes.strictPrefixOf (AxesWithTail.ofAxes e.2.axisRefs)))

/-- The registrations performed for one occurrence by the counting phase: the
full assignment first, then each member of the factor's axes set that is a
strict prefix of it, in set order. -/
def regsOfOccurrence (axesSets : List (List AxesWithTail)) (e : Nat × FactorSharding) :
    List FactorAxesPair :=
  if e.2.axisRefs.isEmpty then []
  else
    let fa : FactorAxesPair := ⟨(e.1 : Int), AxesWithTail.ofAxes e.2.axisRefs⟩
    fa :: (axesSets.getD e.1 []).filterMap (fun axes =>
      if axes.strictPrefixOf fa.axes then some ⟨(e.1 : Int), axes⟩ else none)

/-- All registrations performed by candidate discovery, flattened in occurrence
order. -/
def allRegistrations (p : ShardingProjection) (numFactors : Nat) : List FactorAxesPair :=
  p.allEntries.flatMap (regsOfOccurrence (buildAxesSets numFactors p.allEntries))

/-- Concrete whole-axis reference to mesh axis `x` (used by concrete checks). -/
def axX : AxisRefAttr := ⟨"x", none⟩

/-- Concrete whole-axis reference to mesh axis `y`. -/
def axY : AxisRefAttr := ⟨"y", none⟩

/-- Concrete mesh with axes `x = 2`, `y = 2`. -/
def meshXY : MeshAttr := ⟨[⟨"x", 2⟩, ⟨"y", 2⟩]⟩

/-- Concrete tensor factor sharding: factor 0 assigned `[x, y]`. -/
def tensXY : TensorFactorShardings := ⟨[(0, ⟨[axX, axY], []⟩)]⟩

/-- Concrete tensor factor sharding: factor 0 assigned `[x]`. -/
def tensX : TensorFactorShardings := ⟨[(0, ⟨[axX], []⟩)]⟩

/-- Concrete projection with operand assignments `[x]` and `[x, y]` for the one
factor: its resolver run commits factor 0 twice (first `[x]`, then the
extension `[x, y]`). -/
def projTwoCommits : ShardingProjection := ⟨[tensX, tensXY], []⟩

/-- Concrete projection with the single occurrence `[x, y]` for factor 0: its
discovery registers the truncation `[x]` even though `[x]` appears on no
tensor. -/
def projOneTensor : ShardingProjection := ⟨[tensXY], []⟩

/-- Concrete sharded tensor annotation `<@m, [{x}]>` (open dimension). -/
def shardingX : TensorShardingAttr := ⟨"m", [⟨[axX], false⟩]⟩

/-- Concrete function body: `return %v100` where `%v100` is sharded `[{x}]` and
the function result declares no sharding. -/
def funcUndeclaredResult : Graph :=
  { ops := [⟨0, .ret, [100], []⟩]
    shardings := [(100, shardingX)]
    meshes := [("m", ⟨[⟨"x", 2⟩]⟩)]
    funcResultShardings := [none]
    nextId := 1 }

/-- Concrete mesh with the single axis `x = 2`. -/
def meshX : MeshAttr := ⟨[⟨"x", 2⟩]⟩

/-- Concrete sharding rule with one operand, one result, one factor. -/
def ruleOne : OpShardingRuleAttr := ⟨[[[0]]], [[[0]]], [2], 1⟩

/-- Concrete projection whose only factor sharding carries an overflow axis. -/
def projOverflow : ShardingProjection := ⟨[⟨[(0, ⟨[], [axX]⟩)]⟩], []⟩

/-- Concrete compatible projection: factor 0 is `[x]` on the operand and on the
result. -/
def projCompatible : ShardingProjection := ⟨[tensX], [tensX]⟩

/-- Concrete graph holding one computation whose projection carries overflow
axes. -/
def gOverflow : Graph :=
  { ops := [⟨0, .compute (some ruleOne) projOverflow, [100], [101]⟩]
    shardings := [(100, shardingX), (101, shardingX)]
    meshes := [("m", meshX)]
    funcResultShardings := []
    nextId := 1 }

/-- Concrete graph holding one computation whose projection is compatible. -/
def gCompatible : Graph :=
  { ops := [⟨0, .compute (some ruleOne) projCompatible, [100], [101]⟩]
    shardings := [(100, shardingX), (101, shardingX)]
    meshes := [("m", meshX)]
    funcResultShardings := []
    nextId := 1 }

/-- Concrete graph for reshard insertion: computation `op 0` produces value
`101` consumed by the return; result index 0 is marked changed. -/
def gReshard : Graph :=
  { ops := [⟨0, .compute (some ruleOne) projTwoCommits, [100], [101]⟩,
            ⟨1, .ret, [101], []⟩]
    shardings := [(100, shardingX), (101, shardingX)]
    meshes := [("m", meshX)]
    funcResultShardings := [some shardingX]
    nextId := 2 }

/-- Number of occurrences of a key in a registration list. -/
def countKey (l : List FactorAxesPair) (k : FactorAxesPair) : Nat :=
  (l.filter (fun x => decide (x = k))).length

/-- Invariant of the candidate-counting map against the list of registrations
performed so far: every entry's candidate carries its own key, its sharding
size is the key's sequence's own sharding size under the mesh (set at the first
registration and never changed), and its count equals the number of
registrations of its key; a key is present exactly when it has been registered
at least once. -/
def DiscoveryInv (mesh : MeshAttr) (m : List (FactorAxesPair × FactorAxesCandidate))
    (regs : List FactorAxesPair) : Prop :=
  (∀ e ∈ m, e.2.factorAxes = e.1 ∧
    e.2.shardingSize = e.1.axes.getShardingSize mesh ∧
    e.2.count = countKey regs e.1) ∧
  (∀ k : FactorAxesPair, (alookup m k).isSome = true ↔ countKey regs k ≠ 0)

/-- Overlap-freedom of a per-factor assignment: the sequences assigned to any
two distinct factor indices never overlap (out-of-range indices read as the
empty sequence, which overlaps nothing). -/
def OverlapFree (S : List AxesWithTail) : Prop :=
  ∀ i j : Nat, i ≠ j →
    (S.getD i AxesWithTail.emptySeq).overlaps (S.getD j AxesWithTail.emptySeq) = false

/-- A factor-axes pair is compatible with an assignment: its axes overlap no
entry held by a different factor index. -/
def CompatAssign (S : List AxesWithTail) (q : FactorAxesPair) : Prop :=
  ∀ j : Nat, j ≠ q.factorIndex.toNat →
    q.axes.overlaps (S.getD j AxesWithTail.emptySeq) = false

/-! ### Lemmas about axis references -/

theorem AxisRefAttr.overlapsA_comm (a b : AxisRefAttr) : a.overlapsA b = b.overlapsA a := by
  unfold AxisRefAttr.overlapsA
  by_cases h : a.name = b.name
  · rw [if_pos h, if_pos h.symm]
    cases a.subAxisInfo <;> cases b.subAxisInfo <;> simp [Bool.and_comm]
  · rw [if_neg h, if_neg (fun hh => h hh.symm)]

theorem axisRef_strictPrefixOf_irrefl (a : AxisRefAttr) : a.strictPrefixOf a = false := by
  unfold AxisRefAttr.strictPrefixOf
  cases h : a.subAxisInfo <;> simp

/-! ### Lemmas about axis sequences -/

theorem AxesWithTail.toVector_none {a : AxesWithTail} (h : a.tailAxisRef = none) :
    a.toVector = [] := by
  unfold AxesWithTail.toVector
  rw [h]

theorem AxesWithTail.toVector_some {a : AxesWithTail} {t : AxisRefAttr}
    (h : a.tailAxisRef = some t) : a.toVector = a.axisRefs ++ [t] := by
  unfold AxesWithTail.toVector
  rw [h]

theorem AxesWithTail.size_none {a : AxesWithTail} (h : a.tailAxisRef = none) :
    a.size = 0 := by
  unfold AxesWithTail.size AxesWithTail.empty
  rw [h]
  rfl

theorem AxesWithTail.size_some {a : AxesWithTail} {t : AxisRefAttr}
    (h : a.tailAxisRef = some t) : a.size = a.axisRefs.length + 1 := by
  unfold AxesWithTail.size AxesWithTail.empty
  rw [h]
  rfl

theorem AxesWithTail.overlapsRef_iff (a : AxesWithTail) (x : AxisRefAttr) :
    a.overlapsRef x = true ↔ ∃ y ∈ a.toVector, x.overlapsA y = true := by
  unfold AxesWithTail.overlapsRef AxesWithTail.empty
  cases h : a.tailAxisRef with
  | none => simp [AxesWithTail.toVector_none h]
  | some t =>
      simp only [Option.isNone_some, Bool.false_eq_true, if_false, Bool.or_eq_true,
        List.any_eq_true, AxesWithTail.toVector_some h, List.mem_append,
        List.mem_singleton]
      constructor
      · rintro (hx | ⟨y, hy, hxy⟩)
        · exact ⟨t, Or.inr rfl, hx⟩
        · exact ⟨y, Or.inl hy, hxy⟩
      · rintro ⟨y, hy | rfl, hxy⟩
        · exact Or.inr ⟨y, hy, hxy⟩
        · exact Or.inl hxy

theorem AxesWithTail.overlaps_iff (a b : AxesWithTail) :
    a.overlaps b = true ↔
      ∃ x ∈ a.toVector, ∃ y ∈ b.toVector, x.overlapsA y = true := by
  unfold AxesWithTail.overlaps AxesWithTail.empty
  cases h : a.tailAxisRef with
  | none => simp [AxesWithTail.toVector_none h]
  | some t =>
      simp only [Option.isNone_some, Bool.false_eq_true, if_false, Bool.or_eq_true,
        List.any_eq_true, AxesWithTail.toVector_some h, List.mem_append,
        List.mem_singleton, AxesWithTail.overlapsRef_iff]
      constructor
      · rintro (hx | ⟨y, hy, hxy⟩)
        · exact ⟨t, Or.inr rfl, hx⟩
        · exact ⟨y, Or.inl hy, hxy⟩
      · rintro ⟨y, hy | rfl, hxy⟩
        · exact Or.inr ⟨y, hy, hxy⟩
        · exact Or.inl hxy

theorem AxesWithTail.overlaps_comm (a b : AxesWithTail) : a.overlaps b = b.overlaps a := by
  rw [Bool.eq_iff_iff, AxesWithTail.overlaps_iff, AxesWithTail.overlaps_iff]
  constructor
  · rintro ⟨x, hx, y, hy, hxy⟩
    exact ⟨y, hy, x, hx, by rw [AxisRefAttr.overlapsA_comm]; exact hxy⟩
  · rintro ⟨x, hx, y, hy, hxy⟩
    exact ⟨y, hy, x, hx, by rw [AxisRefAttr.overlapsA_comm]; exact hxy⟩

theorem AxesWithTail.overlaps_empty_left {a : AxesWithTail} (b : AxesWithTail)
    (h : a.tailAxisRef = none) : a.overlaps b = false := by
  unfold AxesWithTail.overlaps AxesWithTail.empty
  rw [h]
  rfl

theorem AxesWithTail.overlaps_empty_right (a : AxesWithTail) {b : AxesWithTail}
    (h : b.tailAxisRef = none) : a.overlaps b = false := by
  apply Bool.eq_false_iff.mpr
  intro val
  obtain ⟨x, _, y, hy, _⟩ := (AxesWithTail.overlaps_iff a b).mp val
  rw [AxesWithTail.toVector_none h] at hy
  cases hy

theorem zip_any_ne_self (l : List AxisRefAttr) :
    (l.zip l).any (fun p => decide (p.1 ≠ p.2)) = false := by
  induction l with
  | nil => rfl
  | cons a t ih => simpa using ih

theorem zip_any_ne_eq_false_iff {l1 l2 : List AxisRefAttr} (h : l1.length ≤ l2.length) :
    ((l1.zip l2).any (fun p => decide (p.1 ≠ p.2)) = false) ↔
      l1 = l2.take l1.length := by
  induction l1 generalizing l2 with
  | nil => simp
  | cons x xs ih =>
      cases l2 with
      | nil => simp at h
      | cons y ys =>
          have hlen : xs.length ≤ ys.length := by simpa using h
          simp only [List.zip_cons_cons, List.any_cons, Bool.or_eq_false_iff,
            decide_eq_false_iff_not, not_not, List.length_cons, List.take_succ_cons,
            List.cons.injEq, ih hlen]

theorem AxesWithTail.strictPrefixOf_irrefl (a : AxesWithTail) :
    a.strictPrefixOf a = false := by
  unfold AxesWithTail.strictPrefixOf
  cases h : a.tailAxisRef with
  | none => simp [AxesWithTail.empty, h]
  | some t =>
      simp [zip_any_ne_self, axisRef_strictPrefixOf_irrefl]

/-- Claim C10: on empty sequences, `strictPrefixOf` behaves as follows — the
empty (unsharded) sequence is a strict prefix of exactly the non-empty
sequences (in particular not of the empty sequence), no non-empty sequence is a
strict prefix of the empty sequence, and `strictPrefixOf` is irreflexive for
all sequences. -/
theorem claim_C10_strictPrefixOf_empty :
    (∀ b : AxesWithTail, AxesWithTail.emptySeq.strictPrefixOf b = !b.empty)
    ∧ (∀ a : AxesWithTail, a.empty = false →
        a.strictPrefixOf AxesWithTail.emptySeq = false)
    ∧ (∀ a : AxesWithTail, a.strictPrefixOf a = false) := by
  refine ⟨fun b => rfl, fun a ha => ?_, AxesWithTail.strictPrefixOf_irrefl⟩
  unfold AxesWithTail.strictPrefixOf
  cases h : a.tailAxisRef with
  | none =>
      exfalso
      unfold AxesWithTail.empty at ha
      rw [h] at ha
      cases ha
  | some t =>
      have hs : a.size = a.axisRefs.length + 1 := AxesWithTail.size_some h
      have hz : AxesWithTail.emptySeq.size = 0 := AxesWithTail.size_none rfl
      dsimp only
      rw [if_pos]
      rw [hs, hz]
      omega

/-- Witness for claim C10 at a concrete non-empty sequence. -/
theorem claim_C10_witness :
    (AxesWithTail.ofAxes [axX]).empty = false ∧
      (AxesWithTail.ofAxes [axX]).strictPrefixOf AxesWithTail.emptySeq = false :=
  ⟨by decide, claim_C10_strictPrefixOf_empty.2.1 _ (by decide)⟩

/-- Claim C9: characterization of `AxesWithTail::strictPrefixOf` on non-empty
sequences — it holds iff either the left sequence is strictly shorter, its
non-tail axes match the corresponding leading axes of the right sequence
element-wise, and its tail is a (possibly whole-axis) prefix of the right
sequence's boundary axis; or the two have equal length, their non-tail axes
agree element-wise, and the left tail is a strict sub-axis prefix of the right
tail. -/
theorem claim_C9_strictPrefixOf_char (a b : AxesWithTail) (ta tb : AxisRefAttr)
    (ha : a.tailAxisRef = some ta) (hb : b.tailAxisRef = some tb) :
    a.strictPrefixOf b = true ↔
      (a.size < b.size ∧ a.axisRefs = b.axisRefs.take a.axisRefs.length ∧
        ∃ bx, b.axisRefs.get? a.axisRefs.length = some bx ∧ ta.prefixOf bx = true)
      ∨ (a.size = b.size ∧ a.axisRefs = b.axisRefs ∧ ta.strictPrefixOf tb = true) := by
  have hsa : a.size = a.axisRefs.length + 1 := AxesWithTail.size_some ha
  have hsb : b.size = b.axisRefs.length + 1 := AxesWithTail.size_some hb
  unfold AxesWithTail.strictPrefixOf
  rw [ha]
  dsimp only
  by_cases hgt : a.size > b.size
  · rw [if_pos hgt]
    constructor
    · intro hfalse
      cases hfalse
    · rintro (⟨hlt, _, _⟩ | ⟨heq, _, _⟩) <;> omega
  · rw [if_neg hgt]
    have hle : a.axisRefs.length ≤ b.axisRefs.length := by omega
    by_cases hz : (a.axisRefs.zip b.axisRefs).any (fun p => decide (p.1 ≠ p.2)) = true
    · rw [if_pos hz]
      constructor
      · intro hfalse
        cases hfalse
      · rintro (⟨_, htake, _⟩ | ⟨_, heq, _⟩)
        · rw [(zip_any_ne_eq_false_iff hle).mpr htake] at hz
          cases hz
        · rw [heq] at hz
          rw [zip_any_ne_self] at hz
          cases hz
    · rw [if_neg hz]
      have hz' : (a.axisRefs.zip b.axisRefs).any (fun p => decide (p.1 ≠ p.2)) = false := by
        revert hz
        cases (a.axisRefs.zip b.axisRefs).any (fun p => decide (p.1 ≠ p.2)) <;> simp
      have htake : a.axisRefs = b.axisRefs.take a.axisRefs.length :=
        (zip_any_ne_eq_false_iff hle).mp hz'
      by_cases heq : a.size = b.size
      · rw [if_pos heq, hb]
        have hlen : a.axisRefs.length = b.axisRefs.length := by omega
        have haxes : a.axisRefs = b.axisRefs := by
          rw [htake, hlen, List.take_length]
        constructor
        · intro hstp
          exact Or.inr ⟨heq, haxes, hstp⟩
        · rintro (⟨hlt, _, _⟩ | ⟨_, _, hstp⟩)
          · omega
          · exact hstp
      · rw [if_neg heq]
        have hlt : a.axisRefs.length < b.axisRefs.length := by omega
        have hget : b.axisRefs.get? a.axisRefs.length =
            some (b.axisRefs.get ⟨a.axisRefs.length, hlt⟩) := by
          rw [List.get?_eq_get hlt]
        rw [hget]
        constructor
        · intro hpre
          exact Or.inl ⟨by omega, htake, ⟨_, rfl, hpre⟩⟩
        · rintro (⟨_, _, bx, hbx, hpre⟩ | ⟨heq2, _, _⟩)
          · cases hbx
            dsimp only
            exact hpre
          · omega

/-! ### Lemmas about the resolver's inner scan -/

theorem perm_getLastD_cons (d r : FactorAxesCandidate) (rs : List FactorAxesCandidate) :
    List.Perm ((r :: rs).getLastD d :: (r :: rs).dropLast) (r :: rs) := by
  induction rs generalizing r d with
  | nil => exact List.Perm.refl _
  | cons s ss ih =>
      have h1 : (r :: s :: ss).getLastD d = (s :: ss).getLastD r := rfl
      have h2 : (r :: s :: ss).dropLast = r :: (s :: ss).dropLast := rfl
      rw [h1, h2]
      exact List.Perm.trans (List.Perm.swap r ((s :: ss).getLastD r) (s :: ss).dropLast)
        (List.Perm.cons r (ih r s))

theorem stdMax_cases (a b : FactorAxesCandidate) : stdMax a b = a ∨ stdMax a b = b := by
  unfold stdMax
  by_cases h : FactorAxesCandidate.lt a b = true
  · exact Or.inr (if_pos h)
  · exact Or.inl (if_neg h)

theorem scanGo_perm (mesh : MeshAttr) (best : FactorAxesPair) :
    ∀ (fuel : Nat) (back front : List FactorAxesCandidate) (nb : FactorAxesCandidate),
      back.length ≤ fuel →
      List.Perm (scanGo mesh best fuel front nb back).1
        (front ++ (back.filter (scanKeep best)).map (scanUpdate mesh best)) := by
  intro fuel
  induction fuel with
  | zero =>
      intro back front nb hlen
      match back with
      | [] => simp [scanGo]
  | succ fuel ih =>
      intro back front nb hlen
      match back with
      | [] => simp [scanGo]
      | c :: rest =>
          simp only [scanGo]
          by_cases hk : scanKeep best c = true
          · rw [if_pos hk]
            have hlen' : rest.length ≤ fuel := by
              simp at hlen
              omega
            have h := ih rest (front ++ [scanUpdate mesh best c])
              (stdMax nb (scanUpdate mesh best c)) hlen'
            rw [List.filter_cons_of_pos hk, List.map_cons]
            rw [List.append_assoc] at h
            simpa using h
          · rw [if_neg hk]
            rw [List.filter_cons_of_neg (by simp [hk])]
            match rest with
            | [] => simp [scanGo]
            | r :: rs =>
                have hlen' : ((r :: rs).getLastD r :: (r :: rs).dropLast).length ≤ fuel := by
                  simp only [List.length_cons, List.length_dropLast] at hlen ⊢
                  omega
                have h := ih ((r :: rs).getLastD r :: (r :: rs).dropLast) front nb hlen'
                refine List.Perm.trans h (List.Perm.append_left front ?_)
                exact List.Perm.map _ (List.Perm.filter _ (perm_getLastD_cons r r rs))

theorem scanGo_nextBest (mesh : MeshAttr) (best : FactorAxesPair) :
    ∀ (fuel : Nat) (back front : List FactorAxesCandidate) (nb : FactorAxesCandidate),
      back.length ≤ fuel →
      (scanGo mesh best fuel front nb back).2 = nb ∨
        (scanGo mesh best fuel front nb back).2 ∈ (scanGo mesh best fuel front nb back).1 := by
  intro fuel
  induction fuel with
  | zero =>
      intro back front nb hlen
      match back with
      | [] => exact Or.inl rfl
  | succ fuel ih =>
      intro back front nb hlen
      match back with
      | [] => exact Or.inl rfl
      | c :: rest =>
          simp only [scanGo]
          by_cases hk : scanKeep best c = true
          · rw [if_pos hk]
            have hlen' : rest.length ≤ fuel := by
              simp at hlen
              omega
            rcases ih rest (front ++ [scanUpdate mesh best c])
                (stdMax nb (scanUpdate mesh best c)) hlen' with h | h
            · rcases stdMax_cases nb (scanUpdate mesh best c) with h2 | h2
              · exact Or.inl (h.trans h2)
              · refine Or.inr ?_
                rw [h.trans h2]
                have hperm := scanGo_perm mesh best fuel rest
                  (front ++ [scanUpdate mesh best c]) (stdMax nb (scanUpdate mesh best c)) hlen'
                refine hperm.mem_iff.mpr ?_
                simp
            · exact Or.inr h
          · rw [if_neg hk]
            match rest with
            | [] => exact Or.inl rfl
            | r :: rs =>
                have hlen' : ((r :: rs).getLastD r :: (r :: rs).dropLast).length ≤ fuel := by
                  simp only [List.length_cons, List.length_dropLast] at hlen ⊢
                  omega
                exact ih ((r :: rs).getLastD r :: (r :: rs).dropLast) front nb hlen'

theorem scanCandidates_perm (mesh : MeshAttr) (best : FactorAxesPair)
    (cands : List FactorAxesCandidate) :
    List.Perm (scanCandidates mesh best cands).1
      ((cands.filter (scanKeep best)).map (scanUpdate mesh best)) := by
  have h := scanGo_perm mesh best cands.length cands [] {} (le_refl _)
  simpa using h

theorem scanCandidates_nextBest (mesh : MeshAttr) (best : FactorAxesPair)
    (cands : List FactorAxesCandidate) :
    (scanCandidates mesh best cands).2 = ({} : FactorAxesCandidate) ∨
      (scanCandidates mesh best cands).2 ∈ (scanCandidates mesh best cands).1 :=
  scanGo_nextBest mesh best cands.length cands [] {} (le_refl _)

theorem length_filter_lt_of_mem {p : FactorAxesCandidate → Bool}
    {l : List FactorAxesCandidate} {x : FactorAxesCandidate} (hx : x ∈ l)
    (hpx : p x = false) : (l.filter p).length < l.length := by
  induction l with
  | nil => cases hx
  | cons a t ih =>
      rcases List.mem_cons.mp hx with rfl | hx'
      · rw [List.filter_cons_of_neg (by simp [hpx])]
        exact Nat.lt_succ_of_le (List.length_filter_le p t)
      · cases hpa : p a with
        | true =>
            rw [List.filter_cons_of_pos hpa]
            exact Nat.succ_lt_succ (ih hx')
        | false =>
            rw [List.filter_cons_of_neg (by simp [hpa])]
            exact Nat.lt_succ_of_le (Nat.le_of_lt (ih hx'))

/-- Witness for claim C9 at concrete non-empty sequences `[x]` and `[x, y]`. -/
theorem claim_C9_witness :
    (AxesWithTail.ofAxes [axX]).strictPrefixOf (AxesWithTail.ofAxes [axX, axY]) = true ↔
      ((AxesWithTail.ofAxes [axX]).size < (AxesWithTail.ofAxes [axX, axY]).size ∧
        (AxesWithTail.ofAxes [axX]).axisRefs =
          (AxesWithTail.ofAxes [axX, axY]).axisRefs.take
            (AxesWithTail.ofAxes [axX]).axisRefs.length ∧
        ∃ bx, (AxesWithTail.ofAxes [axX, axY]).axisRefs.get?
            (AxesWithTail.ofAxes [axX]).axisRefs.length = some bx ∧
          axX.prefixOf bx = true)
      ∨ ((AxesWithTail.ofAxes [axX]).size = (AxesWithTail.ofAxes [axX, axY]).size ∧
        (AxesWithTail.ofAxes [axX]).axisRefs = (AxesWithTail.ofAxes [axX, axY]).axisRefs ∧
        axX.strictPrefixOf axY = true) :=
  claim_C9_strictPrefixOf_char (AxesWithTail.ofAxes [axX]) (AxesWithTail.ofAxes [axX, axY])
    axX axY (by decide) (by decide)

theorem scanUpdate_factorAxes (mesh : MeshAttr) (best : FactorAxesPair)
    (c : FactorAxesCandidate) : (scanUpdate mesh best c).factorAxes = c.factorAxes := by
  unfold scanUpdate
  by_cases h : c.factorAxes.factorIndex = best.factorIndex
  · rw [if_pos h]
  · rw [if_neg h]

theorem scanUpdate_count (mesh : MeshAttr) (best : FactorAxesPair)
    (c : FactorAxesCandidate) : (scanUpdate mesh best c).count = c.count := by
  unfold scanUpdate
  by_cases h : c.factorAxes.factorIndex = best.factorIndex
  · rw [if_pos h]
  · rw [if_neg h]

/-- Claim C2: in each round of the majority-vote resolver, after the best
candidate (factor `f`, axis sequence `A`) has been committed, the scan of the
remaining candidate list keeps a candidate of factor `f` exactly when `A` is a
strict prefix of its sequence; a kept same-factor candidate's sharding size is
recomputed as its sequence's sharding size divided by `A`'s sharding size, and
no surviving same-factor candidate has a sequence equal to `A` (the exact
duplicate is always discarded). -/
theorem claim_C2_commit_round (mesh : MeshAttr) (best : FactorAxesPair)
    (cands : List FactorAxesCandidate) :
    (∀ c ∈ cands, c.factorAxes.factorIndex = best.factorIndex →
      best.axes.strictPrefixOf c.factorAxes.axes = true →
      { c with shardingSize := c.factorAxes.axes.getShardingSize mesh /
          best.axes.getShardingSize mesh } ∈ (scanCandidates mesh best cands).1)
    ∧ (∀ c ∈ (scanCandidates mesh best cands).1,
        c.factorAxes.factorIndex = best.factorIndex →
        best.axes.strictPrefixOf c.factorAxes.axes = true ∧
        c.shardingSize = c.factorAxes.axes.getShardingSize mesh /
          best.axes.getShardingSize mesh ∧
        c.factorAxes.axes ≠ best.axes) := by
  have hperm := scanCandidates_perm mesh best cands
  constructor
  · intro c hc hf hstp
    refine hperm.mem_iff.mpr ?_
    rw [List.mem_map]
    refine ⟨c, List.mem_filter.mpr ⟨hc, ?_⟩, ?_⟩
    · unfold scanKeep
      rw [if_pos hf]
      exact hstp
    · unfold scanUpdate
      rw [if_pos hf]
      rfl
  · intro c' hc' hf
    obtain ⟨c, hcf, hup⟩ := List.mem_map.mp (hperm.mem_iff.mp hc')
    obtain ⟨hc, hkeep⟩ := List.mem_filter.mp hcf
    have hfa : c'.factorAxes = c.factorAxes := by
      rw [← hup, scanUpdate_factorAxes]
    rw [hfa] at hf
    unfold scanKeep at hkeep
    rw [if_pos hf] at hkeep
    refine ⟨by rw [hfa]; exact hkeep, ?_, ?_⟩
    · rw [← hup]
      unfold scanUpdate
      rw [if_pos hf]
      rfl
    · rw [hfa]
      intro heq
      rw [heq] at hkeep
      rw [AxesWithTail.strictPrefixOf_irrefl] at hkeep
      cases hkeep

/-- Witness for claim C2: committing `(factor 0, [x])` keeps the extension
candidate `(factor 0, [x, y])` with its sharding size recomputed to `4 / 2`. -/
theorem claim_C2_witness :
    (⟨⟨0, AxesWithTail.ofAxes [axX, axY]⟩, 1, 4⟩ : FactorAxesCandidate) ∈
        [(⟨⟨0, AxesWithTail.ofAxes [axX, axY]⟩, 1, 4⟩ : FactorAxesCandidate)] ∧
    { (⟨⟨0, AxesWithTail.ofAxes [axX, axY]⟩, 1, 4⟩ : FactorAxesCandidate) with
        shardingSize :=
          (AxesWithTail.ofAxes [axX, axY]).getShardingSize meshXY /
            (AxesWithTail.ofAxes [axX]).getShardingSize meshXY } ∈
      (scanCandidates meshXY ⟨0, AxesWithTail.ofAxes [axX]⟩
        [⟨⟨0, AxesWithTail.ofAxes [axX, axY]⟩, 1, 4⟩]).1 :=
  ⟨by decide,
    (claim_C2_commit_round meshXY ⟨0, AxesWithTail.ofAxes [axX]⟩
      [⟨⟨0, AxesWithTail.ofAxes [axX, axY]⟩, 1, 4⟩]).1
      ⟨⟨0, AxesWithTail.ofAxes [axX, axY]⟩, 1, 4⟩ (by decide) (by decide) (by decide)⟩

/-! ### The overlap-freedom invariant of the resolver loop -/

theorem getD_replicate_empty (n i : Nat) :
    (List.replicate n AxesWithTail.emptySeq).getD i AxesWithTail.emptySeq =
      AxesWithTail.emptySeq := by
  induction n generalizing i with
  | zero => cases i <;> rfl
  | succ n ih =>
      cases i with
      | zero => rfl
      | succ i => simpa [List.replicate] using ih i

theorem getD_set_ne (S : List AxesWithTail) (t j : Nat) (a : AxesWithTail) (h : t ≠ j) :
    (S.set t a).getD j AxesWithTail.emptySeq = S.getD j AxesWithTail.emptySeq := by
  unfold List.getD
  rw [List.get?_set_ne a S h]

theorem getD_set_self (S : List AxesWithTail) (t : Nat) (a : AxesWithTail)
    (h : t < S.length) : (S.set t a).getD t AxesWithTail.emptySeq = a := by
  unfold List.getD
  rw [List.get?_set_eq_of_lt a h]
  rfl

theorem set_of_ge (S : List AxesWithTail) (t : Nat) (a : AxesWithTail)
    (h : S.length ≤ t) : S.set t a = S := by
  induction S generalizing t with
  | nil => rfl
  | cons x xs ih =>
      cases t with
      | zero => simp at h
      | succ t => simpa [List.set] using ih t (by simpa using h)

theorem commit_overlapFree {S : List AxesWithTail} {q : FactorAxesPair}
    (hS : OverlapFree S) (hq : CompatAssign S q) : OverlapFree (q.assignTo S) := by
  unfold FactorAxesPair.assignTo
  by_cases hlen : q.factorIndex.toNat < S.length
  case neg =>
    rw [set_of_ge S _ _ (by omega)]
    exact hS
  case pos =>
    intro i j hij
    by_cases hi : q.factorIndex.toNat = i
    · subst hi
      rw [getD_set_self S _ _ hlen, getD_set_ne S _ _ _ hij]
      exact hq j (fun hj => hij hj.symm)
    · by_cases hj : q.factorIndex.toNat = j
      · subst hj
        rw [getD_set_self S _ _ hlen, getD_set_ne S _ _ _ hi]
        rw [AxesWithTail.overlaps_comm]
        exact hq i (fun hi2 => hi hi2.symm)
      · rw [getD_set_ne S _ _ _ hi, getD_set_ne S _ _ _ hj]
        exact hS i j hij

theorem commit_compatAssign {S : List AxesWithTail} {q : FactorAxesPair}
    {c : FactorAxesCandidate} (hc : CompatAssign S c.factorAxes)
    (hk : scanKeep q c = true) : CompatAssign (q.assignTo S) c.factorAxes := by
  unfold FactorAxesPair.assignTo
  by_cases hlen : q.factorIndex.toNat < S.length
  case neg =>
    rw [set_of_ge S _ _ (by omega)]
    exact hc
  case pos =>
    intro j hj
    by_cases hjq : q.factorIndex.toNat = j
    · subst hjq
      rw [getD_set_self S _ _ hlen]
      have hne : c.factorAxes.factorIndex ≠ q.factorIndex := by
        intro heq
        exact hj (by rw [heq])
      unfold scanKeep at hk
      rw [if_neg hne] at hk
      unfold FactorAxesPair.overlaps at hk
      revert hk
      cases hov : c.factorAxes.axes.overlaps q.axes
      · intro _
        rfl
      · intro hk
        cases hk
    · rw [getD_set_ne S _ _ _ hjq]
      exact hc j hj

theorem scan_member_source {mesh : MeshAttr} {best : FactorAxesPair}
    {cands : List FactorAxesCandidate} {c' : FactorAxesCandidate}
    (h : c' ∈ (scanCandidates mesh best cands).1) :
    ∃ c ∈ cands, scanKeep best c = true ∧ c' = scanUpdate mesh best c := by
  obtain ⟨c, hcf, hup⟩ :=
    List.mem_map.mp ((scanCandidates_perm mesh best cands).mem_iff.mp h)
  obtain ⟨hc, hkeep⟩ := List.mem_filter.mp hcf
  exact ⟨c, hc, hkeep, hup.symm⟩

theorem resolveInv_step (mesh : MeshAttr) (best : FactorAxesPair)
    (cands : List FactorAxesCandidate) (S : List AxesWithTail)
    (hS : OverlapFree S) (hbest : best.factorIndex = -1 ∨ CompatAssign S best)
    (hcands : ∀ c ∈ cands, CompatAssign S c.factorAxes) :
    OverlapFree (if best.empty then S else best.assignTo S)
    ∧ ((scanCandidates mesh best cands).2.factorAxes.factorIndex = -1 ∨
        CompatAssign (if best.empty then S else best.assignTo S)
          (scanCandidates mesh best cands).2.factorAxes)
    ∧ (∀ c ∈ (scanCandidates mesh best cands).1,
        CompatAssign (if best.empty then S else best.assignTo S) c.factorAxes) := by
  have hS' : OverlapFree (if best.empty then S else best.assignTo S) := by
    by_cases hbe : best.empty = true
    · rw [if_pos hbe]
      exact hS
    · rw [if_neg hbe]
      refine commit_overlapFree hS ?_
      rcases hbest with h | h
      · exfalso
        apply hbe
        unfold FactorAxesPair.empty FactorAxesPair.kEmptyFactorIndex
        rw [h]
        rfl
      · exact h
  have hout : ∀ c ∈ (scanCandidates mesh best cands).1,
      CompatAssign (if best.empty then S else best.assignTo S) c.factorAxes := by
    intro c' hc'
    obtain ⟨c, hc, hkeep, hup⟩ := scan_member_source hc'
    have hfa : c'.factorAxes = c.factorAxes := by
      rw [hup, scanUpdate_factorAxes]
    rw [hfa]
    by_cases hbe : best.empty = true
    · rw [if_pos hbe]
      exact hcands c hc
    · rw [if_neg hbe]
      exact commit_compatAssign (hcands c hc) hkeep
  refine ⟨hS', ?_, hout⟩
  rcases scanCandidates_nextBest mesh best cands with h | h
  · left
    rw [h]
  · right
    exact hout _ h

theorem resolveLoop_overlapFree (mesh : MeshAttr) :
    ∀ (fuel : Nat) (best : FactorAxesPair) (cands : List FactorAxesCandidate)
      (S : List AxesWithTail) (commits : Nat),
      OverlapFree S → (best.factorIndex = -1 ∨ CompatAssign S best) →
      (∀ c ∈ cands, CompatAssign S c.factorAxes) →
      OverlapFree (resolveLoop mesh fuel best cands S commits).assign := by
  intro fuel
  induction fuel with
  | zero =>
      intro best cands S commits hS _ _
      exact hS
  | succ fuel ih =>
      intro best cands S commits hS hbest hcands
      by_cases hemp : cands.isEmpty = true
      · simpa [resolveLoop, hemp] using hS
      · have hstep := resolveInv_step mesh best cands S hS hbest hcands
        have := ih (scanCandidates mesh best cands).2.factorAxes
          (scanCandidates mesh best cands).1
          (if best.empty then S else best.assignTo S)
          (if best.empty then commits else commits + 1)
          hstep.1 hstep.2.1 hstep.2.2
        simpa [resolveLoop, hemp] using this

/-- Claim C1: for every input projection, factor count, and mesh, the
per-factor assignment returned by `findCommonAxesUsingMajorityVoteHeuristic` is
overlap-free — for any two distinct factor indices, no axis reference of one
assigned sequence overlaps any axis reference of the other (in particular for
any two distinct factors whose assigned sequences are both non-empty). -/
theorem claim_C1_overlap_free (projection : ShardingProjection) (numFactors : Nat)
    (mesh : MeshAttr) (i j : Nat) (hij : i ≠ j) :
    ∀ x ∈ ((findCommonAxesUsingMajorityVoteHeuristic projection numFactors mesh).getD i
        AxesWithTail.emptySeq).toVector,
    ∀ y ∈ ((findCommonAxesUsingMajorityVoteHeuristic projection numFactors mesh).getD j
        AxesWithTail.emptySeq).toVector,
      x.overlapsA y = false := by
  have hS0 : OverlapFree (List.replicate numFactors AxesWithTail.emptySeq) := by
    intro a b _
    rw [getD_replicate_empty]
    exact AxesWithTail.overlaps_empty_left _ rfl
  have hinit : ∀ c ∈ findFactorAxesCandidates projection numFactors mesh,
      CompatAssign (List.replicate numFactors AxesWithTail.emptySeq) c.factorAxes := by
    intro c _ a _
    rw [getD_replicate_empty]
    exact AxesWithTail.overlaps_empty_right _ rfl
  have hfree : OverlapFree (findCommonAxesUsingMajorityVoteHeuristic projection numFactors mesh) := by
    unfold findCommonAxesUsingMajorityVoteHeuristic majorityVoteStats
    exact resolveLoop_overlapFree mesh _ {} _ _ 0 hS0 (Or.inl rfl) hinit
  intro x hx y hy
  apply Bool.eq_false_iff.mpr
  intro hov
  have : ((findCommonAxesUsingMajorityVoteHeuristic projection numFactors mesh).getD i
      AxesWithTail.emptySeq).overlaps
      ((findCommonAxesUsingMajorityVoteHeuristic projection numFactors mesh).getD j
        AxesWithTail.emptySeq) = true :=
    (AxesWithTail.overlaps_iff _ _).mpr ⟨x, hx, y, hy, hov⟩
  rw [hfree i j hij] at this
  cases this

/-- Witness for claim C1 on a concrete two-factor projection whose resolver
output assigns `[x]` to factor 0 and `[y]` to factor 1: the assigned axis
references do not overlap. -/
theorem claim_C1_witness : axX.overlapsA axY = false :=
  claim_C1_overlap_free ⟨[⟨[(0, ⟨[axX], []⟩), (1, ⟨[axY], []⟩)]⟩], []⟩ 2 meshXY 0 1
    (by decide) axX (by decide) axY (by decide)

/-! ### Termination of the resolver loop -/

theorem resolveLoop_nil (mesh : MeshAttr) :
    ∀ (fuel : Nat) (best : FactorAxesPair) (S : List AxesWithTail) (commits : Nat),
      resolveLoop mesh fuel best [] S commits = ⟨S, [], commits⟩ := by
  intro fuel best S commits
  cases fuel <;> rfl

theorem lt_empty_true (c : FactorAxesCandidate) (h : 0 ≤ c.factorAxes.factorIndex) :
    FactorAxesCandidate.lt {} c = true := by
  have hcount : ({} : FactorAxesCandidate).count = 0 := rfl
  have hsize : ({} : FactorAxesCandidate).shardingSize = 0 := rfl
  have hidx : ({} : FactorAxesCandidate).factorAxes.factorIndex = -1 := rfl
  unfold FactorAxesCandidate.lt
  by_cases h1 : ({} : FactorAxesCandidate).count ≠ c.count
  · rw [if_pos h1]
    simp only [decide_eq_true_eq]
    omega
  · rw [if_neg h1]
    by_cases h2 : ({} : FactorAxesCandidate).shardingSize ≠ c.shardingSize
    · rw [if_pos h2]
      simp only [decide_eq_true_eq]
      omega
    · rw [if_neg h2]
      unfold FactorAxesPair.lt
      have hne : ({} : FactorAxesCandidate).factorAxes.factorIndex ≠
          c.factorAxes.factorIndex := by
        omega
      rw [if_pos hne]
      simp only [decide_eq_true_eq]
      omega

theorem stdMax_empty (c : FactorAxesCandidate) (h : 0 ≤ c.factorAxes.factorIndex) :
    stdMax {} c = c := by
  unfold stdMax
  rw [if_pos (lt_empty_true c h)]

theorem ne_empty_of_nonneg (c : FactorAxesCandidate)
    (h : 0 ≤ c.factorAxes.factorIndex) : c ≠ ({} : FactorAxesCandidate) := by
  intro heq
  have hidx : ({} : FactorAxesCandidate).factorAxes.factorIndex = -1 := rfl
  rw [heq] at h
  omega

theorem scanGo_nb_empty (mesh : MeshAttr) (best : FactorAxesPair) :
    ∀ (fuel : Nat) (back front : List FactorAxesCandidate) (nb : FactorAxesCandidate),
      back.length ≤ fuel →
      (∀ c ∈ back, 0 ≤ c.factorAxes.factorIndex) →
      (scanGo mesh best fuel front nb back).2 = ({} : FactorAxesCandidate) →
      nb = ({} : FactorAxesCandidate) ∧
        (scanGo mesh best fuel front nb back).1 = front := by
  intro fuel
  induction fuel with
  | zero =>
      intro back front nb hlen hnn h
      match back with
      | [] => exact ⟨h, rfl⟩
  | succ fuel ih =>
      intro back front nb hlen hnn h
      match back with
      | [] => exact ⟨h, rfl⟩
      | c :: rest =>
          simp only [scanGo] at h ⊢
          by_cases hk : scanKeep best c = true
          · rw [if_pos hk] at h ⊢
            have hlen' : rest.length ≤ fuel := by
              simp at hlen
              omega
            have hcn : 0 ≤ (scanUpdate mesh best c).factorAxes.factorIndex := by
              rw [scanUpdate_factorAxes]
              exact hnn c (List.mem_cons_self c rest)
            have hres := ih rest (front ++ [scanUpdate mesh best c])
              (stdMax nb (scanUpdate mesh best c)) hlen'
              (fun x hx => hnn x (List.mem_cons_of_mem c hx)) h
            exfalso
            rcases stdMax_cases nb (scanUpdate mesh best c) with h2 | h2
            · have hnb : nb = ({} : FactorAxesCandidate) := h2 ▸ hres.1
              rw [hnb, stdMax_empty _ hcn] at hres
              exact ne_empty_of_nonneg _ hcn hres.1
            · rw [h2] at hres
              exact ne_empty_of_nonneg _ hcn hres.1
          · rw [if_neg hk] at h ⊢
            match rest with
            | [] => exact ⟨h, rfl⟩
            | r :: rs =>
                have hlen' : ((r :: rs).getLastD r :: (r :: rs).dropLast).length ≤ fuel := by
                  simp only [List.length_cons, List.length_dropLast] at hlen ⊢
                  omega
                have hnn' : ∀ x ∈ (r :: rs).getLastD r :: (r :: rs).dropLast,
                    0 ≤ x.factorAxes.factorIndex := by
                  intro x hx
                  have hx2 : x ∈ r :: rs :=
                    (perm_getLastD_cons r r rs).mem_iff.mp hx
                  exact hnn x (List.mem_cons_of_mem c hx2)
                exact ih ((r :: rs).getLastD r :: (r :: rs).dropLast) front nb hlen' hnn' h

theorem scanCandidates_nb_empty (mesh : MeshAttr) (best : FactorAxesPair)
    (cands : List FactorAxesCandidate)
    (hnn : ∀ c ∈ cands, 0 ≤ c.factorAxes.factorIndex)
    (h : (scanCandidates mesh best cands).2 = ({} : FactorAxesCandidate)) :
    (scanCandidates mesh best cands).1 = [] :=
  (scanGo_nb_empty mesh best cands.length cands [] {} (le_refl _) hnn h).2

theorem scan_out_nonneg (mesh : MeshAttr) (best : FactorAxesPair)
    (cands : List FactorAxesCandidate)
    (hnn : ∀ c ∈ cands, 0 ≤ c.factorAxes.factorIndex) :
    ∀ c ∈ (scanCandidates mesh best cands).1, 0 ≤ c.factorAxes.factorIndex := by
  intro c' hc'
  obtain ⟨c, hc, _, hup⟩ := scan_member_source hc'
  rw [hup, scanUpdate_factorAxes]
  exact hnn c hc

theorem empty_iff_neg (p : FactorAxesPair) : p.empty = true ↔ p.factorIndex = -1 := by
  unfold FactorAxesPair.empty FactorAxesPair.kEmptyFactorIndex
  simp

theorem scan_out_length_le (mesh : MeshAttr) (best : FactorAxesPair)
    (cands : List FactorAxesCandidate) :
    (scanCandidates mesh best cands).1.length ≤ cands.length := by
  rw [(scanCandidates_perm mesh best cands).length_eq, List.length_map]
  exact List.length_filter_le _ _

theorem scan_out_length_lt (mesh : MeshAttr) (best : FactorAxesPair)
    (cands : List FactorAxesCandidate) (dup : FactorAxesCandidate)
    (hdup : dup ∈ cands) (hfa : dup.factorAxes = best) :
    (scanCandidates mesh best cands).1.length < cands.length := by
  rw [(scanCandidates_perm mesh best cands).length_eq, List.length_map]
  refine length_filter_lt_of_mem hdup ?_
  unfold scanKeep
  rw [hfa, if_pos rfl, AxesWithTail.strictPrefixOf_irrefl]

theorem resolveLoop_terminates (mesh : MeshAttr) :
    ∀ (fuel : Nat) (best : FactorAxesPair) (cands : List FactorAxesCandidate)
      (S : List AxesWithTail) (commits : Nat),
      (∀ c ∈ cands, 0 ≤ c.factorAxes.factorIndex) →
      (best.factorIndex = -1 ∨ ∃ c ∈ cands, c.factorAxes = best) →
      (if best.factorIndex = -1 then cands.length + 2 else cands.length + 1) ≤ fuel →
      (resolveLoop mesh fuel best cands S commits).cands = [] ∧
        (resolveLoop mesh fuel best cands S commits).commits ≤ commits + cands.length := by
  intro fuel
  induction fuel with
  | zero =>
      intro best cands S commits _ _ hfuel
      exfalso
      by_cases h : best.factorIndex = -1 <;> simp [h] at hfuel
  | succ fuel ih =>
      intro best cands S commits hnn hmem hfuel
      match cands with
      | [] =>
          rw [resolveLoop_nil]
          exact ⟨rfl, Nat.le_add_right _ _⟩
      | c0 :: cs =>
          have houtnn := scan_out_nonneg mesh best (c0 :: cs) hnn
          simp only [resolveLoop, List.isEmpty_cons, Bool.false_eq_true, if_false]
          by_cases hout : (scanCandidates mesh best (c0 :: cs)).1 = []
          · rw [hout, resolveLoop_nil]
            refine ⟨rfl, ?_⟩
            by_cases hb1 : best.factorIndex = -1
            · have hbt : best.empty = true := (empty_iff_neg best).mpr hb1
              simp only [hbt, if_true]
              exact Nat.le_add_right _ _
            · have hbt : best.empty = false := by
                cases hbe2 : best.empty
                · rfl
                · exact absurd ((empty_iff_neg best).mp hbe2) hb1
              simp only [hbt, Bool.false_eq_true, if_false, List.length_cons]
              omega
          · have hnbne : (scanCandidates mesh best (c0 :: cs)).2 ≠
                ({} : FactorAxesCandidate) := by
              intro h
              exact hout (scanCandidates_nb_empty mesh best (c0 :: cs) hnn h)
            have hnbmem : (scanCandidates mesh best (c0 :: cs)).2 ∈
                (scanCandidates mesh best (c0 :: cs)).1 := by
              rcases scanCandidates_nextBest mesh best (c0 :: cs) with h | h
              · exact absurd h hnbne
              · exact h
            have hnbnn : 0 ≤ (scanCandidates mesh best (c0 :: cs)).2.factorAxes.factorIndex :=
              houtnn _ hnbmem
            have hlenle := scan_out_length_le mesh best (c0 :: cs)
            have hrec := ih (scanCandidates mesh best (c0 :: cs)).2.factorAxes
              (scanCandidates mesh best (c0 :: cs)).1
              (if best.empty then S else best.assignTo S)
              (if best.empty then commits else commits + 1)
              houtnn
              (Or.inr ⟨_, hnbmem, rfl⟩)
              ?_
            · refine ⟨hrec.1, ?_⟩
              refine le_trans hrec.2 ?_
              by_cases hb1 : best.factorIndex = -1
              · have hbt : best.empty = true := (empty_iff_neg best).mpr hb1
                simp only [hbt, if_true]
                simp only [List.length_cons] at hlenle ⊢
                omega
              · have hbt : best.empty = false := by
                  cases hbe2 : best.empty
                  · rfl
                  · exact absurd ((empty_iff_neg best).mp hbe2) hb1
                simp only [hbt, Bool.false_eq_true, if_false]
                have hlenlt : (scanCandidates mesh best (c0 :: cs)).1.length <
                    (c0 :: cs).length := by
                  rcases hmem with h | ⟨dup, hdup, hfa⟩
                  · exact absurd h hb1
                  · exact scan_out_length_lt mesh best (c0 :: cs) dup hdup hfa
                simp only [List.length_cons] at hlenlt ⊢
                omega
            · have hnb1 : ¬ (scanCandidates mesh best (c0 :: cs)).2.factorAxes.factorIndex
                  = -1 := by
                omega
              rw [if_neg hnb1]
              by_cases hb1 : best.factorIndex = -1
              · rw [if_pos hb1] at hfuel
                simp only [List.length_cons] at hfuel hlenle ⊢
                omega
              · rw [if_neg hb1] at hfuel
                have hlenlt : (scanCandidates mesh best (c0 :: cs)).1.length <
                    (c0 :: cs).length := by
                  rcases hmem with h | ⟨dup, hdup, hfa⟩
                  · exact absurd h hb1
                  · exact scan_out_length_lt mesh best (c0 :: cs) dup hdup hfa
                simp only [List.length_cons] at hfuel hlenlt ⊢
                omega

/-- Non-negativity of factor indices throughout candidate discovery. -/
theorem increment_nonneg (mesh : MeshAttr)
    {m : List (FactorAxesPair × FactorAxesCandidate)} {fa : FactorAxesPair}
    (hm : ∀ e ∈ m, 0 ≤ e.2.factorAxes.factorIndex) (hfa : 0 ≤ fa.factorIndex) :
    ∀ e ∈ incrementFactorAxesCounts m fa mesh, 0 ≤ e.2.factorAxes.factorIndex := by
  unfold incrementFactorAxesCounts
  cases alookup m fa with
  | some c =>
      intro e he
      obtain ⟨e0, he0, heq⟩ := List.mem_map.mp he
      by_cases h : e0.1 = fa
      · rw [if_pos h] at heq
        rw [← heq]
        exact hm e0 he0
      · rw [if_neg h] at heq
        rw [← heq]
        exact hm e0 he0
  | none =>
      intro e he
      rcases List.mem_append.mp he with h | h
      · exact hm e h
      · rw [List.mem_singleton.mp h]
        exact hfa

theorem foldl_increment_nonneg (mesh : MeshAttr) (f : Nat) (target : AxesWithTail) :
    ∀ (l : List AxesWithTail) (m : List (FactorAxesPair × FactorAxesCandidate)),
      (∀ e ∈ m, 0 ≤ e.2.factorAxes.factorIndex) →
      ∀ e ∈ l.foldl
        (fun m axes =>
          if axes.strictPrefixOf target then
            incrementFactorAxesCounts m ⟨(f : Int), axes⟩ mesh
          else m) m,
        0 ≤ e.2.factorAxes.factorIndex := by
  intro l
  induction l with
  | nil => intro m hm; exact hm
  | cons a rest ih =>
      intro m hm
      simp only [List.foldl_cons]
      by_cases h : a.strictPrefixOf target = true
      · rw [if_pos h]
        exact ih _ (increment_nonneg mesh hm (by simp))
      · rw [if_neg h]
        exact ih _ hm

theorem countPhase_nonneg (axesSets : List (List AxesWithTail)) (mesh : MeshAttr) :
    ∀ (entries : List (Nat × FactorSharding))
      (m : List (FactorAxesPair × FactorAxesCandidate)),
      (∀ e ∈ m, 0 ≤ e.2.factorAxes.factorIndex) →
      ∀ e ∈ countPhase axesSets mesh m entries, 0 ≤ e.2.factorAxes.factorIndex := by
  intro entries
  induction entries with
  | nil => intro m hm; exact hm
  | cons e0 rest ih =>
      intro m hm
      obtain ⟨factorIndex, factorSharding⟩ := e0
      simp only [countPhase]
      by_cases hne : factorSharding.axisRefs.isEmpty = true
      · rw [if_pos hne]
        exact ih m hm
      · rw [if_neg hne]
        refine ih _ ?_
        refine foldl_increment_nonneg mesh factorIndex _ _ _ ?_
        exact increment_nonneg mesh hm (by simp)

theorem findFactorAxesCandidates_nonneg (projection : ShardingProjection)
    (numFactors : Nat) (mesh : MeshAttr) :
    ∀ c ∈ findFactorAxesCandidates projection numFactors mesh,
      0 ≤ c.factorAxes.factorIndex := by
  intro c hc
  unfold findFactorAxesCandidates at hc
  obtain ⟨e, he, heq⟩ := List.mem_map.mp hc
  rw [← heq]
  exact countPhase_nonneg _ mesh _ [] (by intro e h; cases h) e he

/-- Counterexample to claim C4 as stated: on the projection with occurrences
`[x]` and `[x, y]` for the single factor (`numFactors = 1`), the majority-vote
loop performs 2 commit rounds — first committing `[x]`, then the surviving
extension `[x, y]` — which exceeds the claimed bound of `numFactors` commit
rounds. -/
theorem claim_C4_counterexample :
    (majorityVoteStats projTwoCommits 1 meshXY).commits = 2 ∧
      ¬ (majorityVoteStats projTwoCommits 1 meshXY).commits ≤ 1 := by
  decide

/-! ### The driver's bypass paths and idempotence -/

/-- Claim C5 (code bug): the full transformation is not idempotent.  On a
function whose returned value is sharded while the function result declares no
sharding, the first run inserts a reshard to the fully-closed version of the
operand sharding, and the second run — comparing the still-absent declared
sharding against the inserted reshard's sharding — inserts another reshard, so
running the pass twice does not produce the graph of a single run. -/
theorem claim_C5_not_idempotent :
    (runPass funcUndeclaredResult).ops.length = 2 ∧
      (runPass (runPass funcUndeclaredResult)).ops.length = 3 ∧
      runPass (runPass funcUndeclaredResult) ≠ runPass funcUndeclaredResult := by
  decide

/-- Claim C7: any operation whose projection carries overflow axes is bypassed —
`hasOverflowAxes` is true exactly when some tensor factor sharding has a
non-empty overflow-axes list, and when it is true the driver returns before
candidate discovery, resolution, or reshard insertion, leaving the graph (the
operation, its operands, results, and sharding annotations) unmodified. -/
theorem claim_C7_overflow_bypass :
    (∀ p : ShardingProjection, hasOverflowAxes p = true ↔
      ∃ t ∈ p.tensors, ∃ e ∈ t.factorIndexToSharding, e.2.overflowAxes ≠ [])
    ∧ (∀ (g : Graph) (opId : Nat) (op : OpNode) (rule : OpShardingRuleAttr)
        (proj : ShardingProjection) (meshName : String) (mesh : MeshAttr),
        g.findOp opId = some op →
        op.kind = OpKind.compute (some rule) proj →
        getCommonMeshName g op = some meshName →
        alookup g.meshes meshName = some mesh →
        hasOverflowAxes proj = true →
        processOp g opId = g) := by
  constructor
  · intro p
    unfold hasOverflowAxes
    simp [List.any_eq_true, List.isEmpty_iff]
  · intro g opId op rule proj meshName mesh hfind hkind hmesh hattr hover
    unfold processOp getOrCreateShardingRule getProjection
    rw [hfind]
    dsimp only
    rw [hkind]
    dsimp only
    rw [hmesh]
    dsimp only
    rw [hattr]
    dsimp only
    simp [hover]

/-- Witness for claim C7: the bypass on a concrete operation with an overflow
axis. -/
theorem claim_C7_witness : processOp gOverflow 0 = gOverflow :=
  claim_C7_overflow_bypass.2 gOverflow 0
    ⟨0, .compute (some ruleOne) projOverflow, [100], [101]⟩ ruleOne projOverflow
    "m" meshX (by decide) (by decide) (by decide) (by decide) (by decide)

theorem alookup_append_single {α β : Type} [DecidableEq α] (m : List (α × β)) (f : α)
    (v : β) (k : α) :
    alookup (m ++ [(f, v)]) k =
      match alookup m k with
      | some a => some a
      | none => if f = k then some v else none := by
  induction m with
  | nil => rfl
  | cons e rest ih =>
      obtain ⟨a, b⟩ := e
      by_cases h : a = k
      · simp [alookup, h]
      · simp only [List.cons_append, alookup, if_neg h]
        exact ih

theorem alookup_cons_ne {α β : Type} [DecidableEq α] (a : α) (b : β)
    (rest : List (α × β)) (k : α) (h : a ≠ k) :
    alookup ((a, b) :: rest) k = alookup rest k := by
  simp only [alookup, if_neg h]

theorem alookup_cons_self {α β : Type} [DecidableEq α] (a : α) (b : β)
    (rest : List (α × β)) :
    alookup ((a, b) :: rest) a = some b := by
  simp [alookup]

theorem commonCheck_iff :
    ∀ (l : List (Nat × FactorSharding)) (common : List (Nat × List AxisRefAttr)),
      commonCheck common l = true ↔
        ∀ e ∈ l,
          (∃ a, alookup common e.1 = some a ∧ e.2.axisRefs = a) ∨
          (alookup common e.1 = none ∧
            (alookup l e.1).map FactorSharding.axisRefs = some e.2.axisRefs) := by
  intro l
  induction l with
  | nil =>
      intro common
      simp [commonCheck]
  | cons e0 rest ih =>
      obtain ⟨f, fs⟩ := e0
      intro common
      rw [show commonCheck common ((f, fs) :: rest) =
          (match alookup common f with
           | none => commonCheck (common ++ [(f, fs.axisRefs)]) rest
           | some axes => if fs.axisRefs = axes then commonCheck common rest else false)
        from rfl]
      cases hlk : alookup common f with
      | some a =>
          dsimp only
          by_cases heq : fs.axisRefs = a
          · rw [if_pos heq, ih common]
            constructor
            · intro h e he
              rcases List.mem_cons.mp he with rfl | he'
              · exact Or.inl ⟨a, hlk, heq⟩
              · rcases h e he' with hcase | ⟨hnone, hfirst⟩
                · exact Or.inl hcase
                · have hne : f ≠ e.1 := by
                    intro hfe
                    rw [← hfe, hlk] at hnone
                    cases hnone
                  refine Or.inr ⟨hnone, ?_⟩
                  rw [alookup_cons_ne f fs rest e.1 hne]
                  exact hfirst
            · intro h e he
              rcases h e (List.mem_cons_of_mem _ he) with hcase | ⟨hnone, hfirst⟩
              · exact Or.inl hcase
              · have hne : f ≠ e.1 := by
                  intro hfe
                  rw [← hfe, hlk] at hnone
                  cases hnone
                refine Or.inr ⟨hnone, ?_⟩
                rw [alookup_cons_ne f fs rest e.1 hne] at hfirst
                exact hfirst
          · rw [if_neg heq]
            constructor
            · intro hfalse
              cases hfalse
            · intro h
              rcases h (f, fs) (List.mem_cons_self _ _) with ⟨a', hlk', heq'⟩ | ⟨hnone, _⟩
              · rw [hlk] at hlk'
                cases hlk'
                exact absurd heq' heq
              · rw [hlk] at hnone
                cases hnone
      | none =>
          dsimp only
          rw [ih (common ++ [(f, fs.axisRefs)])]
          constructor
          · intro h e he
            rcases List.mem_cons.mp he with rfl | he'
            · refine Or.inr ⟨hlk, ?_⟩
              rw [alookup_cons_self]
              rfl
            · rcases h e he' with ⟨a, ha, heq⟩ | ⟨hnone, hfirst⟩
              · rw [alookup_append_single] at ha
                cases hc : alookup common e.1 with
                | some b =>
                    rw [hc] at ha
                    dsimp only at ha
                    exact Or.inl ⟨b, rfl, heq.trans (Option.some.inj ha).symm⟩
                | none =>
                    rw [hc] at ha
                    dsimp only at ha
                    by_cases hfe : f = e.1
                    · rw [if_pos hfe] at ha
                      have hax : e.2.axisRefs = fs.axisRefs :=
                        heq.trans (Option.some.inj ha).symm
                      refine Or.inr ⟨rfl, ?_⟩
                      rw [← hfe, alookup_cons_self, hax]
                      rfl
                    · rw [if_neg hfe] at ha
                      cases ha
              · rw [alookup_append_single] at hnone
                cases hc : alookup common e.1 with
                | some b =>
                    rw [hc] at hnone
                    dsimp only at hnone
                    cases hnone
                | none =>
                    rw [hc] at hnone
                    dsimp only at hnone
                    by_cases hfe : f = e.1
                    · rw [if_pos hfe] at hnone
                      cases hnone
                    · refine Or.inr ⟨rfl, ?_⟩
                      rw [alookup_cons_ne f fs rest e.1 hfe]
                      exact hfirst
          · intro h e he
            rcases h e (List.mem_cons_of_mem _ he) with ⟨a, ha, heq⟩ | ⟨hnone, hfirst⟩
            · refine Or.inl ⟨a, ?_, heq⟩
              rw [alookup_append_single, ha]
            · by_cases hfe : f = e.1
              · have hcons : alookup ((f, fs) :: rest) e.1 = some fs := by
                  rw [← hfe, alookup_cons_self]
                rw [hcons] at hfirst
                refine Or.inl ⟨fs.axisRefs, ?_, ?_⟩
                · rw [alookup_append_single, hnone]
                  dsimp only
                  rw [if_pos hfe]
                · exact (Option.some.injEq _ _ ▸ hfirst :
                    fs.axisRefs = e.2.axisRefs).symm
              · refine Or.inr ⟨?_, ?_⟩
                · rw [alookup_append_single, hnone]
                  dsimp only
                  rw [if_neg hfe]
                · rw [alookup_cons_ne f fs rest e.1 hfe] at hfirst
                  exact hfirst

/-- Claim C6: `hasCompatibleFactorShardings` returns true exactly when every
tensor's per-factor assignment (over all operands and results, in order) equals
the first-seen assignment for that factor — full-sequence equality — and when
it returns true (with no overflow axes present) the driver skips the operation:
no reshard is inserted and the graph is unchanged. -/
theorem claim_C6_compatible_skip :
    (∀ p : ShardingProjection, hasCompatibleFactorShardings p = true ↔
      ∀ e ∈ p.allEntries,
        (alookup p.allEntries e.1).map FactorSharding.axisRefs = some e.2.axisRefs)
    ∧ (∀ (g : Graph) (opId : Nat) (op : OpNode) (rule : OpShardingRuleAttr)
        (proj : ShardingProjection) (meshName : String) (mesh : MeshAttr),
        g.findOp opId = some op →
        op.kind = OpKind.compute (some rule) proj →
        getCommonMeshName g op = some meshName →
        alookup g.meshes meshName = some mesh →
        hasOverflowAxes proj = false →
        hasCompatibleFactorShardings proj = true →
        processOp g opId = g) := by
  constructor
  · intro p
    unfold hasCompatibleFactorShardings
    rw [commonCheck_iff]
    constructor
    · intro h e he
      rcases h e he with ⟨a, ha, _⟩ | ⟨_, hfirst⟩
      · cases ha
      · exact hfirst
    · intro h e he
      exact Or.inr ⟨rfl, h e he⟩
  · intro g opId op rule proj meshName mesh hfind hkind hmesh hattr hover hcompat
    unfold processOp getOrCreateShardingRule getProjection
    rw [hfind]
    dsimp only
    rw [hkind]
    dsimp only
    rw [hmesh]
    dsimp only
    rw [hattr]
    dsimp only
    simp [hover, hcompat]

/-- Witness for claim C6: the skip on a concrete operation whose factor
shardings are identical on operand and result. -/
theorem claim_C6_witness : processOp gCompatible 0 = gCompatible :=
  claim_C6_compatible_skip.2 gCompatible 0
    ⟨0, .compute (some ruleOne) projCompatible, [100], [101]⟩ ruleOne projCompatible
    "m" meshX (by decide) (by decide) (by decide) (by decide) (by decide) (by decide)

/-! ### Reshard insertion for changed results -/

theorem setShardingV_ops (g : Graph) (v : Nat) (s : TensorShardingAttr) :
    (g.setShardingV v s).ops = g.ops := by
  unfold Graph.setShardingV
  split <;> rfl

theorem setShardingV_match_ops (g : Graph) (o : Option TensorShardingAttr) :
    (match o with
     | some s => g.setShardingV 0 s
     | none => g).ops = g.ops := by
  cases o
  · rfl
  · exact setShardingV_ops g 0 _

theorem alookup_map_update_self {α β : Type} [DecidableEq α] (m : List (α × β))
    (v : α) (s : β) (h : (alookup m v).isSome = true) :
    alookup (m.map (fun e => if e.1 = v then (v, s) else e)) v = some s := by
  induction m with
  | nil => cases h
  | cons e rest ih =>
      obtain ⟨a, b⟩ := e
      by_cases hav : a = v
      · simp only [List.map_cons, if_pos hav]
        exact alookup_cons_self v s _
      · simp only [List.map_cons, if_neg hav]
        rw [alookup_cons_ne a b _ v hav]
        rw [alookup_cons_ne a b rest v hav] at h
        exact ih h

theorem setShardingV_get_self (g : Graph) (v : Nat) (s : TensorShardingAttr) :
    (g.setShardingV v s).getShardingV v = some s := by
  unfold Graph.setShardingV Graph.getShardingV
  by_cases h : (alookup g.shardings v).isSome = true
  · rw [if_pos h]
    exact alookup_map_update_self g.shardings v s h
  · rw [if_neg h]
    dsimp only
    rw [alookup_append_single]
    cases hc : alookup g.shardings v with
    | some b =>
        rw [hc] at h
        exact absurd rfl h
    | none =>
        dsimp only
        rw [if_pos rfl]

theorem flatMap_insert_adjacent (targetId : Nat) (n : OpNode) :
    ∀ (ops : List OpNode) (op : OpNode), op ∈ ops → op.opId = targetId →
      ∃ (k : Nat) (o0 : OpNode),
        (ops.flatMap (fun o => if o.opId = targetId then [o, n] else [o])).get? k =
          some o0 ∧ o0.opId = targetId ∧
        (ops.flatMap (fun o => if o.opId = targetId then [o, n] else [o])).get? (k + 1) =
          some n := by
  intro ops
  induction ops with
  | nil => intro op h; cases h
  | cons h0 t ih =>
      intro op hmem hid
      by_cases hh : h0.opId = targetId
      · refine ⟨0, h0, ?_, hh, ?_⟩
        · simp [hh]
        · simp [hh]
      · have hmem' : op ∈ t := by
          rcases List.mem_cons.mp hmem with rfl | h
          · exact absurd hid hh
          · exact h
        obtain ⟨k, o0, h1, h2, h3⟩ := ih op hmem' hid
        refine ⟨k + 1, o0, ?_, h2, ?_⟩
        · simpa [hh] using h1
        · simpa [hh] using h3

theorem mem_flatMap_insert (targetId : Nat) (n : OpNode) (ops : List OpNode)
    (op : OpNode) (hmem : op ∈ ops) :
    op ∈ ops.flatMap (fun o => if o.opId = targetId then [o, n] else [o]) := by
  rw [List.mem_flatMap]
  refine ⟨op, hmem, ?_⟩
  by_cases h : op.opId = targetId
  · simp [h]
  · simp [h]

theorem mem_flatMap_insert_src (targetId : Nat) (n : OpNode) (ops : List OpNode)
    (x : OpNode)
    (hx : x ∈ ops.flatMap (fun o => if o.opId = targetId then [o, n] else [o])) :
    x ∈ ops ∨ x = n := by
  rw [List.mem_flatMap] at hx
  obtain ⟨a, ha, hxa⟩ := hx
  by_cases h : a.opId = targetId
  · rw [if_pos h] at hxa
    rcases List.mem_cons.mp hxa with rfl | h1
    · exact Or.inl ha
    · exact Or.inr (List.mem_singleton.mp h1)
  · rw [if_neg h] at hxa
    refine Or.inl ?_
    rw [List.mem_singleton.mp hxa]
    exact ha

theorem replaceFn_opId (rid rv r : Nat) (o : OpNode) :
    ((fun o => if o.opId = rid then o
        else { o with operands := o.operands.map (fun v => if v = r then rv else v) })
      o).opId = o.opId := by
  dsimp only
  by_cases h : o.opId = rid
  · rw [if_pos h]
  · rw [if_neg h]

/-- Claim C8: for a result index marked as changed, `insertExplicitReshards`
creates a reshard node annotated with the result's original (pre-resolution)
sharding whose operand is the result, places it immediately after the
operation, redirects every existing consumer of the result (but not the
reshard itself, whose operand keeps the result) to the reshard's value, and
updates the result's annotation to the resolved sharding derived from the
projection. -/
theorem claim_C8_result_reshard (g : Graph) (opId : Nat) (op : OpNode)
    (proj : ShardingProjection) (uts : UpdateTensorShardings)
    (rule : OpShardingRuleAttr) (meshName : String) (mesh : MeshAttr)
    (i r : Nat) (tfs : TensorFactorShardings) (mapping : List (List Nat))
    (hfind : g.findOp opId = some op)
    (hres : op.results.get? i = some r)
    (hproj : proj.results.get? i = some tfs)
    (hmap : rule.resultMappings.get? i = some mapping)
    (hops : trueIndices uts.updateOperands = [])
    (hbits : trueIndices uts.updateResults = [i])
    (hfresh : ∀ o ∈ g.ops, o.opId ≠ g.nextId) :
    ∃ k : Nat,
      ((insertExplicitReshards g opId proj uts rule meshName mesh).ops.get? k).map
          OpNode.opId = some opId ∧
      (insertExplicitReshards g opId proj uts rule meshName mesh).ops.get? (k + 1) =
        some ⟨g.nextId, OpKind.reshard (g.getShardingV r), [r], [g.nextId + 1]⟩ ∧
      (∀ o ∈ g.ops,
        ∃ o' ∈ (insertExplicitReshards g opId proj uts rule meshName mesh).ops,
          o'.opId = o.opId ∧
          o'.operands = o.operands.map (fun v => if v = r then g.nextId + 1 else v)) ∧
      (insertExplicitReshards g opId proj uts rule meshName mesh).getShardingV r =
        some (createTensorShardingAttr tfs mapping rule.factorSizes meshName mesh) := by
  have hG : insertExplicitReshards g opId proj uts rule meshName mesh =
      ((match g.getShardingV r with
        | some s =>
            (({ g with nextId := g.nextId + 2 }).insertAfterOp opId
              ⟨g.nextId, OpKind.reshard (g.getShardingV r), [r],
                [g.nextId + 1]⟩).setShardingV (g.nextId + 1) s
        | none =>
            ({ g with nextId := g.nextId + 2 }).insertAfterOp opId
              ⟨g.nextId, OpKind.reshard (g.getShardingV r), [r],
                [g.nextId + 1]⟩).replaceUsesExcept r (g.nextId + 1)
          g.nextId).setShardingV r
        (createTensorShardingAttr tfs mapping rule.factorSizes meshName mesh) := by
    unfold insertExplicitReshards insertOperandReshards insertResultReshards
    rw [hops, hbits]
    simp only [List.foldl_nil, List.foldl_cons]
    rw [hfind]
    try dsimp only
    rw [hres, hproj, hmap]
  have hopmem : op ∈ g.ops := by
    unfold Graph.findOp at hfind
    exact List.mem_of_find?_eq_some hfind
  have hopid : op.opId = opId := by
    unfold Graph.findOp at hfind
    have := List.find?_some hfind
    simpa using this
  have hops_eq : (insertExplicitReshards g opId proj uts rule meshName mesh).ops =
      (g.ops.flatMap (fun o =>
        if o.opId = opId then
          [o, ⟨g.nextId, OpKind.reshard (g.getShardingV r), [r], [g.nextId + 1]⟩]
        else [o])).map
        (fun o => if o.opId = g.nextId then o
          else { o with
            operands := o.operands.map (fun v => if v = r then g.nextId + 1 else v) }) := by
    rw [hG, setShardingV_ops]
    unfold Graph.replaceUsesExcept
    dsimp only
    cases g.getShardingV r with
    | none => rfl
    | some s =>
        rw [setShardingV_ops]
        rfl
  obtain ⟨k, o0, h1, h2, h3⟩ := flatMap_insert_adjacent opId
    ⟨g.nextId, OpKind.reshard (g.getShardingV r), [r], [g.nextId + 1]⟩ g.ops op hopmem hopid
  refine ⟨k, ?_, ?_, ?_, ?_⟩
  · rw [hops_eq, List.get?_map, h1]
    simp only [Option.map_some']
    rw [replaceFn_opId, h2]
  · rw [hops_eq, List.get?_map, h3]
    simp
  · intro o ho
    refine ⟨if o.opId = g.nextId then o
        else { o with operands := o.operands.map (fun v => if v = r then g.nextId + 1 else v) },
      ?_, ?_, ?_⟩
    · rw [hops_eq]
      exact List.mem_map_of_mem _ (mem_flatMap_insert opId _ g.ops o ho)
    · exact replaceFn_opId g.nextId (g.nextId + 1) r o
    · rw [if_neg (hfresh o ho)]
  · rw [hG]
    exact setShardingV_get_self _ r _

/-- Witness for claim C8 on a concrete graph: the changed result 101 of
operation 0 gets a reshard inserted right after it, the return redirected, and
the result annotation updated. -/
theorem claim_C8_witness :
    ∃ k : Nat,
      ((insertExplicitReshards gReshard 0 projCompatible ⟨[false], [true]⟩ ruleOne
          "m" meshX).ops.get? k).map OpNode.opId = some 0 ∧
      (insertExplicitReshards gReshard 0 projCompatible ⟨[false], [true]⟩ ruleOne
          "m" meshX).ops.get? (k + 1) =
        some ⟨gReshard.nextId, OpKind.reshard (gReshard.getShardingV 101), [101],
          [gReshard.nextId + 1]⟩ ∧
      (∀ o ∈ gReshard.ops,
        ∃ o' ∈ (insertExplicitReshards gReshard 0 projCompatible ⟨[false], [true]⟩
            ruleOne "m" meshX).ops,
          o'.opId = o.opId ∧
          o'.operands = o.operands.map
            (fun v => if v = 101 then gReshard.nextId + 1 else v)) ∧
      (insertExplicitReshards gReshard 0 projCompatible ⟨[false], [true]⟩ ruleOne
          "m" meshX).getShardingV 101 =
        some (createTensorShardingAttr tensX [[0]] ruleOne.factorSizes "m" meshX) :=
  claim_C8_result_reshard gReshard 0
    ⟨0, .compute (some ruleOne) projTwoCommits, [100], [101]⟩
    projCompatible ⟨[false], [true]⟩ ruleOne "m" meshX 0 101 tensX [[0]]
    (by decide) (by decide) (by decide) (by decide) (by decide) (by decide)
    (by decide)

/-! ### Candidate discovery: keys, counts, and sharding sizes -/

theorem countKey_nil (k : FactorAxesPair) : countKey [] k = 0 := rfl

theorem countKey_append (l1 l2 : List FactorAxesPair) (k : FactorAxesPair) :
    countKey (l1 ++ l2) k = countKey l1 k + countKey l2 k := by
  unfold countKey
  rw [List.filter_append, List.length_append]

theorem countKey_singleton (a k : FactorAxesPair) :
    countKey [a] k = if a = k then 1 else 0 := by
  unfold countKey
  by_cases h : a = k
  · simp [h]
  · simp [h]

theorem alookup_mem {α β : Type} [DecidableEq α] :
    ∀ (m : List (α × β)) (k : α) (v : β), alookup m k = some v → (k, v) ∈ m := by
  intro m
  induction m with
  | nil => intro k v h; cases h
  | cons e rest ih =>
      obtain ⟨a, b⟩ := e
      intro k v h
      by_cases hk : a = k
      · rw [← hk] at h ⊢
        rw [alookup_cons_self] at h
        cases h
        exact List.mem_cons_self _ _
      · rw [alookup_cons_ne a b rest k hk] at h
        exact List.mem_cons_of_mem _ (ih k v h)

theorem alookup_none_not_mem {α β : Type} [DecidableEq α] :
    ∀ (m : List (α × β)) (k : α), alookup m k = none → ∀ e ∈ m, e.1 ≠ k := by
  intro m
  induction m with
  | nil => intro k _ e he; cases he
  | cons e0 rest ih =>
      obtain ⟨a, b⟩ := e0
      intro k h e he
      by_cases hk : a = k
      · rw [← hk, alookup_cons_self] at h
        cases h
      · rcases List.mem_cons.mp he with rfl | he'
        · exact hk
        · rw [alookup_cons_ne a b rest k hk] at h
          exact ih k h e he'

theorem alookup_map_bump_isSome (m : List (FactorAxesPair × FactorAxesCandidate))
    (fa k : FactorAxesPair) :
    (alookup (m.map (fun e =>
        if e.1 = fa then (e.1, { e.2 with count := e.2.count + 1 }) else e)) k).isSome
      = (alookup m k).isSome := by
  induction m with
  | nil => rfl
  | cons e0 rest ih =>
      obtain ⟨a, b⟩ := e0
      by_cases hfa : a = fa
      · simp only [List.map_cons, if_pos hfa]
        by_cases hk : a = k
        · rw [← hk, alookup_cons_self, alookup_cons_self]
          rfl
        · rw [alookup_cons_ne a _ _ k hk, alookup_cons_ne a b rest k hk]
          exact ih
      · simp only [List.map_cons, if_neg hfa]
        by_cases hk : a = k
        · rw [← hk, alookup_cons_self, alookup_cons_self]
        · rw [alookup_cons_ne a b _ k hk, alookup_cons_ne a b rest k hk]
          exact ih

theorem increment_inv (mesh : MeshAttr)
    {m : List (FactorAxesPair × FactorAxesCandidate)} {regs : List FactorAxesPair}
    (fa : FactorAxesPair) (hinv : DiscoveryInv mesh m regs) :
    DiscoveryInv mesh (incrementFactorAxesCounts m fa mesh) (regs ++ [fa]) := by
  obtain ⟨h1, h3⟩ := hinv
  unfold incrementFactorAxesCounts
  cases hlk : alookup m fa with
  | some c =>
      dsimp only
      constructor
      · intro e he
        obtain ⟨e0, he0, heq⟩ := List.mem_map.mp he
        obtain ⟨ha, hb, hc⟩ := h1 e0 he0
        by_cases hk : e0.1 = fa
        · rw [if_pos hk] at heq
          rw [← heq]
          refine ⟨ha, hb, ?_⟩
          rw [countKey_append, countKey_singleton, if_pos hk.symm, hc]
        · rw [if_neg hk] at heq
          rw [← heq]
          refine ⟨ha, hb, ?_⟩
          rw [countKey_append, countKey_singleton, if_neg (fun h => hk h.symm), hc]
          omega
      · intro k
        rw [alookup_map_bump_isSome m fa k, countKey_append, countKey_singleton]
        by_cases hk : fa = k
        · rw [if_pos hk]
          constructor
          · intro _
            omega
          · intro _
            rw [← hk, hlk]
            rfl
        · rw [if_neg hk]
          rw [Nat.add_zero]
          exact h3 k
  | none =>
      have hnot := alookup_none_not_mem m fa hlk
      dsimp only
      constructor
      · intro e he
        rcases List.mem_append.mp he with h | h
        · obtain ⟨ha, hb, hc⟩ := h1 e h
          refine ⟨ha, hb, ?_⟩
          rw [countKey_append, countKey_singleton, if_neg (fun hh => hnot e h hh.symm), hc]
          omega
        · rw [List.mem_singleton.mp h]
          refine ⟨rfl, rfl, ?_⟩
          have hc0 : countKey regs fa = 0 := by
            by_contra hne
            have := (h3 fa).mpr hne
            rw [hlk] at this
            cases this
          rw [countKey_append, countKey_singleton, if_pos rfl, hc0]
      · intro k
        rw [alookup_append_single, countKey_append, countKey_singleton]
        by_cases hk : fa = k
        · rw [if_pos hk]
          cases hc : alookup m k with
          | some b =>
              have : countKey regs k ≠ 0 := (h3 k).mp (by rw [hc]; rfl)
              constructor
              · intro _
                omega
              · intro _
                rfl
          | none =>
              dsimp only
              rw [if_pos hk]
              constructor
              · intro _
                omega
              · intro _
                rfl
        · rw [if_neg hk, if_neg hk, Nat.add_zero]
          cases hc : alookup m k with
          | some b =>
              dsimp only
              rw [← h3 k, hc]
          | none =>
              dsimp only
              rw [← h3 k, hc]

theorem foldl_set_inv (mesh : MeshAttr) (f : Nat) (target : AxesWithTail) :
    ∀ (axlist : List AxesWithTail) (m : List (FactorAxesPair × FactorAxesCandidate))
      (regs : List FactorAxesPair), DiscoveryInv mesh m regs →
      DiscoveryInv mesh
        (axlist.foldl (fun m axes =>
          if axes.strictPrefixOf target then
            incrementFactorAxesCounts m ⟨(f : Int), axes⟩ mesh
          else m) m)
        (regs ++ axlist.filterMap (fun axes =>
          if axes.strictPrefixOf target then some ⟨(f : Int), axes⟩ else none)) := by
  intro axlist
  induction axlist with
  | nil =>
      intro m regs h
      simpa using h
  | cons a rest ih =>
      intro m regs h
      simp only [List.foldl_cons, List.filterMap_cons]
      by_cases hp : a.strictPrefixOf target = true
      · rw [if_pos hp, if_pos hp]
        have := ih (incrementFactorAxesCounts m ⟨(f : Int), a⟩ mesh) (regs ++ [⟨(f : Int), a⟩])
          (increment_inv mesh _ h)
        simpa [List.append_assoc] using this
      · rw [if_neg hp, if_neg hp]
        exact ih m regs h

theorem countPhase_inv (axesSets : List (List AxesWithTail)) (mesh : MeshAttr) :
    ∀ (entries : List (Nat × FactorSharding))
      (m : List (FactorAxesPair × FactorAxesCandidate)) (regs : List FactorAxesPair),
      DiscoveryInv mesh m regs →
      DiscoveryInv mesh (countPhase axesSets mesh m entries)
        (regs ++ entries.flatMap (regsOfOccurrence axesSets)) := by
  intro entries
  induction entries with
  | nil =>
      intro m regs h
      simpa using h
  | cons e0 rest ih =>
      intro m regs h
      obtain ⟨factorIndex, factorSharding⟩ := e0
      simp only [countPhase, List.flatMap_cons]
      by_cases hne : factorSharding.axisRefs.isEmpty = true
      · rw [if_pos hne]
        have hreg : regsOfOccurrence axesSets (factorIndex, factorSharding) = [] := by
          unfold regsOfOccurrence
          rw [if_pos hne]
        rw [hreg]
        simpa using ih m regs h
      · rw [if_neg hne]
        have hreg : regsOfOccurrence axesSets (factorIndex, factorSharding) =
            (⟨(factorIndex : Int), AxesWithTail.ofAxes factorSharding.axisRefs⟩ :
                FactorAxesPair) ::
              (axesSets.getD factorIndex []).filterMap (fun axes =>
                if axes.strictPrefixOf (AxesWithTail.ofAxes factorSharding.axisRefs) then
                  some ⟨(factorIndex : Int), axes⟩
                else none) := by
          unfold regsOfOccurrence
          rw [if_neg hne]
        rw [hreg]
        have h1 := increment_inv mesh
          (⟨(factorIndex : Int), AxesWithTail.ofAxes factorSharding.axisRefs⟩ :
            FactorAxesPair) h
        have h2 := foldl_set_inv mesh factorIndex
          (AxesWithTail.ofAxes factorSharding.axisRefs)
          (axesSets.getD factorIndex []) _ _ h1
        have h3 := ih _ _ h2
        simpa [List.append_assoc] using h3

theorem map_snd_find? (k : FactorAxesPair) :
    ∀ (m : List (FactorAxesPair × FactorAxesCandidate)),
      (∀ e ∈ m, e.2.factorAxes = e.1) →
      (m.map Prod.snd).find? (fun c => decide (c.factorAxes = k)) = alookup m k := by
  intro m
  induction m with
  | nil => intro _; rfl
  | cons e0 rest ih =>
      obtain ⟨a, c⟩ := e0
      intro h1
      have hac : c.factorAxes = a := h1 (a, c) (List.mem_cons_self _ _)
      by_cases hk : a = k
      · rw [← hk]
        rw [List.map_cons, List.find?_cons_of_pos, alookup_cons_self]
        simp [hac]
      · rw [List.map_cons, List.find?_cons_of_neg, alookup_cons_ne a c rest k hk]
        · exact ih (fun e he => h1 e (List.mem_cons_of_mem _ he))
        · simp [hac, hk]

/-- Counterexample to claim C3 as stated: on the projection with the single
occurrence `[x, y]` for factor 0, the code registers a candidate for the
truncation `[x]` even though `[x]` appears as no tensor's factor assignment —
the claim's registered-key set excludes it. -/
theorem claim_C3_counterexample :
    (⟨0, AxesWithTail.ofAxes [axX]⟩ : FactorAxesPair) ∈
        (findFactorAxesCandidates projOneTensor 1 meshXY).map
          (fun c => c.factorAxes) ∧
      (⟨0, AxesWithTail.ofAxes [axX]⟩ : FactorAxesPair) ∉
        claimRegisteredKeys projOneTensor := by
  decide

/-- Claim C3 (amended): candidate discovery registers, for every non-empty
factor assignment occurring on any tensor, the full assignment and, separately,
every member of the factor's truncation set (every leading whole-axis
truncation of any of the factor's assignments, not only sequences that appear
as a tensor's full assignment) that is a strict prefix of the occurrence; each
registration of the same (factor, axis-sequence) key increments one shared
occurrence count, and the first registration sets the candidate's sharding size
to the sequence's own sharding size under the mesh.  Formally: the output
candidate for key `k` exists iff `k` is registered at least once, and then
carries exactly the number of registrations of `k` as its count and `k`'s own
sharding size. -/
theorem claim_C3_discovery_counts (projection : ShardingProjection) (numFactors : Nat)
    (mesh : MeshAttr) (k : FactorAxesPair) :
    (findFactorAxesCandidates projection numFactors mesh).find?
        (fun c => decide (c.factorAxes = k)) =
      (if countKey (allRegistrations projection numFactors) k = 0 then none
       else some ⟨k, countKey (allRegistrations projection numFactors) k,
         k.axes.getShardingSize mesh⟩) := by
  have hbase : DiscoveryInv mesh [] [] := by
    constructor
    · intro e he
      cases he
    · intro k0
      constructor
      · intro h
        cases h
      · intro h
        exact absurd rfl h
  have hinv := countPhase_inv (buildAxesSets numFactors projection.allEntries) mesh
    projection.allEntries [] [] hbase
  rw [List.nil_append] at hinv
  obtain ⟨h1, h3⟩ := hinv
  unfold findFactorAxesCandidates
  rw [map_snd_find? k _ (fun e he => (h1 e he).1)]
  unfold allRegistrations
  cases hc : alookup
      (countPhase (buildAxesSets numFactors projection.allEntries) mesh []
        projection.allEntries) k with
  | none =>
      have : countKey (projection.allEntries.flatMap
          (regsOfOccurrence (buildAxesSets numFactors projection.allEntries))) k = 0 := by
        by_contra hne
        have := (h3 k).mpr hne
        rw [hc] at this
        cases this
      rw [if_pos this]
  | some c =>
      have hcnt : countKey (projection.allEntries.flatMap
          (regsOfOccurrence (buildAxesSets numFactors projection.allEntries))) k ≠ 0 :=
        (h3 k).mp (by
          rw [hc]
          rfl)
      rw [if_neg hcnt]
      obtain ⟨ha, hb, hcc⟩ := h1 (k, c) (alookup_mem _ k c hc)
      cases c with
      | mk cfa ccount csize =>
          dsimp only at ha hb hcc
          rw [ha, hb, hcc]

/-- Claim C4 (amended): for every input, the majority-vote resolver's main loop
terminates — every commit round strictly shrinks the candidate list (the
committed candidate's own exact duplicate is always removed and every discard
is irreversible), so the loop runs to completion (empty candidate list) within
the provided fuel and performs at most as many commit rounds as there are
discovered candidates (rather than at most `numFactors`). -/
theorem claim_C4_termination (projection : ShardingProjection) (numFactors : Nat)
    (mesh : MeshAttr) :
    (majorityVoteStats projection numFactors mesh).cands = [] ∧
      (majorityVoteStats projection numFactors mesh).commits ≤
        (findFactorAxesCandidates projection numFactors mesh).length := by
  unfold majorityVoteStats
  have h := resolveLoop_terminates mesh
    ((findFactorAxesCandidates projection numFactors mesh).length + 2) {}
    (findFactorAxesCandidates projection numFactors mesh)
    (List.replicate numFactors AxesWithTail.emptySeq) 0
    (findFactorAxesCandidates_nonneg projection numFactors mesh)
    (Or.inl rfl)
    (by rw [if_pos rfl])
  simpa using h

end SdyReshard
